import Mathlib

/-!
# Verification of the `urule` memory-scanner core

This file gives a shallow embedding of the scanner core of the `urule`
repository (`src-tauri/src/region.rs`, `src-tauri/src/scan/mod.rs`,
`src-tauri/src/scan/scannable.rs`, `src-tauri/src/scan/scan_meta.rs`)
and proves or refutes the stated properties of its candidate-location
store, its compaction step, its scan engine, its scannable value kinds
and its predicate construction.

Modelling conventions:
* machine integers (`usize`, the integer value kinds) are `Nat`/`Int`
  with explicit bounds and `% 2^w` where wrap-around matters;
* a `BTreeMap<usize, T>` is a list of key/value pairs that is strictly
  sorted by key (the iteration order of the map);
* byte buffers are `List Nat`, one entry per byte;
* partial operations (slice indexing, `unwrap`, overflowing arithmetic
  under debug assertions) return `Option`, with `none` for a panic;
* the `f32` values of the compaction threshold are modelled exactly by
  significand/exponent pairs: the cast and the multiplication round to
  24 significant bits with ties to even, precisely as IEEE-754 binary32
  does on the (positive, normal, non-overflowing) operands that occur
  there.
-/

namespace Urule

/-! ## List and iterator utilities -/

/-- The list `s, s + step, s + 2*step, ...` with `n` elements. -/
def strideList (s n step : Nat) : List Nat :=
  (List.range n).map (fun i => s + i * step)

/-- Rust `(s..e).step_by(step)`: all `s + i*step < e`. -/
def rangeStep (s e step : Nat) : List Nat :=
  if s < e then strideList s ((e - s - 1) / step + 1) step else []

/-- Rust `(s..=e).step_by(step)`: all `s + i*step ≤ e`. -/
def rangeStepIncl (s e step : Nat) : List Nat :=
  if s ≤ e then strideList s ((e - s) / step + 1) step else []

/-- Rust slice `mem[off..off+n]`; `none` models the out-of-bounds panic. -/
def readBytes (mem : List Nat) (off n : Nat) : Option (List Nat) :=
  if off + n ≤ mem.length then some ((mem.drop off).take n) else none

/-- A `flat_map`-style filter where the per-element body may panic
(`none` aborts the whole traversal, `some none` skips the element,
`some (some b)` keeps `b`). -/
def optFilterMap (f : α → Option (Option β)) : List α → Option (List β)
  | [] => some []
  | a :: l => do
    let r ← f a
    let rest ← optFilterMap f l
    pure (match r with | some b => b :: rest | none => rest)

/-- The stateful mask construction of `try_compact`'s `Masked` branch:
walk the stride addresses, emitting `true` whenever the address equals
the next not-yet-consumed key. -/
def buildMask : List Nat → List Nat → List Bool
  | [], _ => []
  | _ :: slots, [] => false :: buildMask slots []
  | a :: slots, k :: ks =>
    if a = k then true :: buildMask slots ks else false :: buildMask slots (k :: ks)

/-! ## Exact model of the `f32` arithmetic used by `try_compact`

`try_compact` decides the `ExcludedRange` conversion with
`locations.len() as f32 >= range_max_addresses as f32 * 0.95`.
The operands of that comparison are nonnegative, normal and far below
overflow, so IEEE-754 binary32 arithmetic on them is exactly: round
each `usize` to 24 significant bits (ties to even), multiply by
`0.95f32 = 15938355 * 2^(-24)` and round the product to 24 significant
bits, then compare the resulting exact values.  We represent such an
`f32` by a significand/exponent pair and implement the rounding on
naturals. -/

/-- `⌊log2 n⌋` for `n ≥ 1`, via fuel-bounded halving (the fuel `n`
always suffices). -/
def log2fuel : Nat → Nat → Nat
  | 0, _ => 0
  | fuel + 1, n => if 2 ≤ n then log2fuel fuel (n / 2) + 1 else 0

def natLog2 (n : Nat) : Nat := log2fuel n n

/-- Round `q + r / (2 * half)` (with `0 ≤ r < 2 * half`) to the nearest
integer, ties to even. -/
def rndHalfEven (q r half : Nat) : Nat :=
  if r < half then q
  else if half < r then q + 1
  else if q % 2 = 0 then q else q + 1

/-- A nonnegative `f32` value `m * 2^(e - 23)`; normalized means
`2^23 ≤ m < 2^24`, and `m = 0` encodes zero. -/
structure F32 where
  m : Nat
  e : ℤ
  deriving DecidableEq

/-- Normalize `p * 2^(e - 23)` (for `p ≥ 2^23`) to 24 significant bits,
rounding ties to even. -/
def normF32 (p : Nat) (e : ℤ) : F32 :=
  if p < 2 ^ 24 then ⟨p, e⟩
  else
    let k := natLog2 p - 23
    let m := rndHalfEven (p / 2 ^ k) (p % 2 ^ k) (2 ^ (k - 1))
    if m < 2 ^ 24 then ⟨m, e + k⟩ else ⟨m / 2, e + k + 1⟩

/-- `n as f32`: round a `usize` to the nearest `f32` (ties to even). -/
def natToF32 (n : Nat) : F32 :=
  if n = 0 then ⟨0, 0⟩
  else
    let e := natLog2 n
    if e ≤ 23 then ⟨n * 2 ^ (23 - e), e⟩ else normF32 n 23

/-- Multiplication by the `f32` literal `0.95` (whose exact value is
`15938355 * 2^(-24)`), with the product rounded back to `f32`. -/
def mulPoint95 (x : F32) : F32 :=
  if x.m = 0 then ⟨0, 0⟩ else normF32 (x.m * 15938355) (x.e - 24)

/-- `a <= b` on nonnegative finite `f32` values (normalized form makes
the order lexicographic in exponent, then significand). -/
def f32Le (a b : F32) : Bool :=
  if a.m = 0 then true
  else if b.m = 0 then false
  else if a.e = b.e then a.m ≤ b.m
  else a.e < b.e

/-- The condition
`locations.len() as f32 >= range_max_addresses as f32 * 0.95`
from `try_compact`, in exactly modelled `f32` arithmetic. -/
def excludedRangeWorth (len slots : Nat) : Bool :=
  f32Le (mulPoint95 (natToF32 slots)) (natToF32 len)

/-! ## Scannable value kinds (`scan/scannable.rs`)

The integer implementations decode with `from_ne_bytes` (host order:
little-endian), compare with the native `Ord`, and subtract with the
plain `-` operator, whose overflow is a program error in Rust (a panic
whenever overflow checks are enabled); we model that subtraction as
`none` on overflow. -/

/-- Little-endian decode of `w` bytes into an unsigned value. -/
def leDecode : List Nat → Nat
  | [] => 0
  | b :: rest => b % 256 + 256 * leDecode rest

/-- Little-endian encode of `n % 2^(8w)` into `w` bytes. -/
def leEncode (w : Nat) (n : Nat) : List Nat :=
  match w with
  | 0 => []
  | w + 1 => n % 256 :: leEncode w (n / 256)

/-- `<$int>::from_ne_bytes` for a `w`-byte integer kind; two's
complement reinterpretation when `signed`. -/
def intDecode (signed : Bool) (w : Nat) (bytes : List Nat) : Int :=
  let u := leDecode (bytes.take w)
  if signed ∧ 2 ^ (8 * w - 1) ≤ u then (u : Int) - 2 ^ (8 * w) else (u : Int)

/-- `to_ne_bytes` of a `w`-byte integer value (two's complement). -/
def intEncode (w : Nat) (n : Int) : List Nat :=
  leEncode w (n % (2 ^ (8 * w) : Nat)).toNat

/-- The inclusive value range of a `w`-byte integer kind. -/
def intLo (signed : Bool) (w : Nat) : Int :=
  if signed then -(2 ^ (8 * w - 1)) else 0

def intHi (signed : Bool) (w : Nat) : Int :=
  if signed then 2 ^ (8 * w - 1) - 1 else 2 ^ (8 * w) - 1

/-- `Scannable::sub` for integers: `(*self - other).to_ne_bytes()`.
The plain `-` makes overflow a program error (panic under overflow
checks), modelled by `none`; it does NOT wrap. -/
def intSubChecked (signed : Bool) (w : Nat) (v : Int) (bytes : List Nat) :
    Option (List Nat) :=
  let other := intDecode signed w bytes
  let d := v - other
  if intLo signed w ≤ d ∧ d ≤ intHi signed w then some (intEncode w d) else none

/-- The operations a scannable value kind provides to the engine
(`trait Scannable`). `subB` returns `none` when the source panics. -/
structure ScannableOps (T : Type) where
  fromBytes : List Nat → T
  toBytes : T → List Nat
  eqB : T → List Nat → Bool
  cmpB : T → List Nat → Ordering
  subB : T → List Nat → Option (List Nat)

/-- The `Scannable` implementation of a `w`-byte integer kind. -/
def intOps (signed : Bool) (w : Nat) : ScannableOps Int where
  fromBytes := intDecode signed w
  toBytes := intEncode w
  eqB := fun v b => v == intDecode signed w b
  cmpB := fun v b => compare v (intDecode signed w b)
  subB := intSubChecked signed w

/-! ## The `f32` roughly-equal comparison (`scan/scannable.rs`)

`eq` masks the low `MANTISSA_DIGITS / 2 = 12` bits of both bit
patterns (`bits & !((1 << 12) - 1)`) and compares the two resulting
`f32`s with `==`.  We work directly on 32-bit patterns: masking clears
the low 12 bits, and `==` on `f32` is: false if either side is NaN,
otherwise true iff the bit patterns agree or both are (signed) zeros. -/

/-- `bits & 0xFFFF_F000` for a 32-bit pattern: clear the low 12 bits. -/
def maskLow12 (x : Nat) : Nat := x / 4096 * 4096

/-- A 32-bit pattern is a NaN: exponent field all ones, mantissa ≠ 0. -/
def isNaN32 (x : Nat) : Bool :=
  x / 2 ^ 23 % 256 == 255 && x % 2 ^ 23 != 0

/-- A 32-bit pattern is `+0.0` or `-0.0`. -/
def isZero32 (x : Nat) : Bool := x % 2 ^ 31 == 0

/-- IEEE-754 `==` on two 32-bit patterns. -/
def f32BitsEq (a b : Nat) : Bool :=
  if isNaN32 a || isNaN32 b then false
  else a == b || (isZero32 a && isZero32 b)

/-- `Scannable::eq` for `f32`, on the bit patterns of the two operands
(`self` and `from_ne_bytes(bytes)`). -/
def eqF32 (x y : Nat) : Bool :=
  f32BitsEq (maskLow12 x) (maskLow12 y)

/-! ## The candidate-location store (`region.rs`)

`SIZE` is the byte width of the value kind (the const generic).  A
`KeyValue` store carries the entries of the `BTreeMap` in its iteration
order (strictly ascending keys). -/

inductive LocationsStyle (T : Type) where
  | keyValue (locations : List (Nat × T))
  | sameValue (locations : List Nat) (value : T)
  | range (start stop : Nat) (values : List T)
  | excludedRange (start stop : Nat) (excluded : List Nat) (values : List T)
  | offsetted (base : Nat) (offsets : List (Nat × T))
  | masked (base : Nat) (mask : List Bool) (values : List T)
  deriving DecidableEq

namespace LocationsStyle

/-- `LocationsStyle::len`.  Note that the `Range` arm divides the byte
length of the range by `SIZE` and the `ExcludedRange` arm does not
divide at all. -/
def len (SIZE : Nat) : LocationsStyle T → Nat
  | keyValue locations => locations.length
  | sameValue locations _ => locations.length
  | range s e _ => (e - s) / SIZE
  | excludedRange s e excluded _ => (e - s) - excluded.length
  | offsetted _ offsets => offsets.length
  | masked _ _ values => values.length

/-- `LocationsStyle::addresses`: the iterated address sequence. -/
def addresses (SIZE : Nat) : LocationsStyle T → List Nat
  | keyValue locations => locations.map Prod.fst
  | sameValue locations _ => locations
  | range s e _ => rangeStep s e SIZE
  | excludedRange s e excluded _ =>
    (rangeStep s e SIZE).filter (fun a => !excluded.contains a)
  | offsetted base offsets => offsets.map (fun p => base + p.1)
  | masked base mask _ =>
    mask.enum.filterMap (fun p => if p.2 then some (base + p.1 * SIZE) else none)

/-- `LocationsStyle::into_locations`: flatten to `(address, value)` pairs. -/
def intoLocations (SIZE : Nat) : LocationsStyle T → List (Nat × T)
  | keyValue locations => locations
  | sameValue locations value => locations.map (fun a => (a, value))
  | range s _ values => values.enum.map (fun p => (s + p.1 * SIZE, p.2))
  | excludedRange s e excluded values =>
    ((rangeStep s e SIZE).filter (fun a => !excluded.contains a)).zip values
  | offsetted base offsets => offsets.map (fun p => (base + p.1, p.2))
  | masked base mask values =>
    ((mask.enum.filterMap (fun p => if p.2 then some p.1 else none)).zip values).map
      (fun p => (base + p.1 * SIZE, p.2))

/-- `Region::value_at` (on the store).  `none` models the panics:
failed `unwrap`s, out-of-bounds indexing, and `usize` subtraction
underflow. -/
def valueAt (SIZE : Nat) : LocationsStyle T → Nat → Option T
  | keyValue locations, a => (locations.find? (fun p => p.1 == a)).map Prod.snd
  | sameValue _ value, _ => some value
  | range s _ values, a =>
    if a < s then none else values.get? ((a - s) / SIZE)
  | excludedRange s _ excluded values, a =>
    if a < s then none
    else
      let index := (a - s) / SIZE
      let smaller := (excluded.filter (fun e => decide (e < a))).length
      if index < smaller then none else values.get? (index - smaller)
  | offsetted base offsets, a =>
    if a < base then none
    else ((offsets.find? (fun p => p.1 == (a - base) % 65536)).map Prod.snd)
  | masked base mask values, a =>
    ((mask.enum.filterMap
        (fun p => if p.2 then some (base + p.1 * SIZE) else none)).findIdx?
      (fun address => a == address)).bind
      (fun index => values.get? index)

/-- The body of `try_compact` once `low` (the minimum key) and `high`
(the maximum key) have been read off the map; `addressing_range` is
`high - low`, `range_max_addresses` is `addressing_range / SIZE + 1`.
`usize::BITS = 64` and `size_of::<usize>() = 8` on the 64-bit host. -/
def compactBody (SIZE : Nat) (locations : List (Nat × T)) (low high : Nat) :
    LocationsStyle T :=
  if locations.length = (high - low) / SIZE + 1 then
    range low (high + 1) (locations.map Prod.snd)
  else if (high - low) / SIZE + 1 ≤ 64 ∧
      8 + ((high - low) / SIZE + 1) < locations.length * 8 then
    masked low (buildMask (rangeStepIncl low high SIZE) (locations.map Prod.fst))
      (locations.map Prod.snd)
  else if excludedRangeWorth locations.length ((high - low) / SIZE + 1) then
    excludedRange low (high + 1)
      ((rangeStepIncl low high SIZE).filter
        (fun a => !(locations.map Prod.fst).contains a))
      (locations.map Prod.snd)
  else if high - low ≤ 65535 then
    offsetted low (locations.map (fun p => (p.1 - low, p.2)))
  else keyValue locations

/-- `LocationsStyle::try_compact`: a no-op except on `KeyValue` with
more than one entry, where `low`/`high` are the minimum and maximum
keys (`keys().min()/max()` of the `BTreeMap`). -/
def tryCompact (SIZE : Nat) (style : LocationsStyle T) : LocationsStyle T :=
  match style with
  | keyValue locations =>
    if locations.length ≤ 1 then keyValue locations
    else
      compactBody SIZE locations ((locations.map Prod.fst).min?.getD 0)
        ((locations.map Prod.fst).max?.getD 0)
  | other => other

end LocationsStyle

/-- The fields of `MEMORY_BASIC_INFORMATION` the engine uses. -/
structure RegionInfo where
  base : Nat
  regionSize : Nat
  deriving DecidableEq

/-- A scanned memory region. -/
structure Region (T : Type) where
  info : RegionInfo
  locations : LocationsStyle T
  deriving DecidableEq

/-! ## The scan engine (`scan/mod.rs`) -/

/-- `Scan<SIZE, T>`: the predicate variants of the engine. -/
inductive Scan (T : Type) where
  | exact (v : T)
  | unknown
  | inRange (lo hi : T)
  | unchanged
  | changed
  | decreased
  | increased
  | decreasedBy (v : T)
  | increasedBy (v : T)
  deriving DecidableEq

/-- `memory.windows(SIZE).enumerate().step_by(SIZE)`: the `SIZE`-aligned
windows with their byte offsets. -/
def windowsStep (SIZE : Nat) (mem : List Nat) : List (Nat × List Nat) :=
  if SIZE ≤ mem.length then
    (List.range ((mem.length - SIZE) / SIZE + 1)).map
      (fun i => (i * SIZE, (mem.drop (i * SIZE)).take SIZE))
  else []

variable {T : Type}

/-- `Scan::acceptable`; `none` models a panic inside `Scannable::sub`. -/
def acceptable (ops : ScannableOps T) (scan : Scan T) (old : T) (new : List Nat) :
    Option Bool :=
  match scan with
  | .exact n => some (ops.eqB n new)
  | .unknown => some true
  | .inRange lo hi =>
    some (ops.cmpB lo new != Ordering.gt && ops.cmpB hi new != Ordering.lt)
  | .unchanged => some (ops.eqB old new)
  | .changed => some (!ops.eqB old new)
  | .decreased => some (ops.cmpB old new == Ordering.gt)
  | .increased => some (ops.cmpB old new == Ordering.lt)
  | .decreasedBy n => (ops.subB old new).map (fun d => ops.eqB n d)
  | .increasedBy n =>
    (ops.subB (ops.fromBytes new) (ops.toBytes old)).map (fun d => ops.eqB n d)

/-- `Scan::run`: the first scan over a raw region buffer. -/
def Scan.run (ops : ScannableOps T) (SIZE : Nat) (scan : Scan T)
    (info : RegionInfo) (mem : List Nat) : Region T :=
  match scan with
  | .exact value =>
    { info
      locations := .sameValue
        ((windowsStep SIZE mem).filterMap
          (fun p => if ops.eqB value p.2 then some (info.base + p.1) else none))
        value }
  | .inRange lo hi =>
    { info
      locations := LocationsStyle.tryCompact SIZE (.keyValue
        ((windowsStep SIZE mem).filterMap
          (fun p =>
            if ops.cmpB lo p.2 != Ordering.gt && ops.cmpB hi p.2 != Ordering.lt then
              some (info.base + p.1, ops.fromBytes p.2)
            else none))) }
  | _ =>
    { info
      locations := .range info.base (info.base + info.regionSize)
        ((windowsStep SIZE mem).map (fun p => ops.fromBytes p.2)) }

/-- `Scan::rerun`: re-scan a previously scanned region against fresh
memory.  `none` models a panic (out-of-bounds slice, failed `unwrap`
inside `value_at`, `usize` underflow, overflow inside `sub`). -/
def Scan.rerun (ops : ScannableOps T) (SIZE : Nat) (scan : Scan T)
    (region : Region T) (mem : List Nat) : Option (Region T) :=
  match scan with
  | .unknown => some region
  | .exact value =>
    (optFilterMap
        (fun addr =>
          if addr < region.info.base then none
          else
            (readBytes mem (addr - region.info.base) SIZE).map
              (fun new => if ops.eqB value new then some addr else none))
        (region.locations.addresses SIZE)).map
      (fun kept => { info := region.info, locations := .sameValue kept value })
  | _ =>
    (optFilterMap
        (fun addr => do
          let old ← region.locations.valueAt SIZE addr
          if addr < region.info.base then none
          else do
            let new ← readBytes mem (addr - region.info.base) SIZE
            let keep ← acceptable ops scan old new
            pure (if keep then some (addr, ops.fromBytes new) else none))
        (region.locations.addresses SIZE)).map
      (fun kept =>
        { info := region.info
          locations := LocationsStyle.tryCompact SIZE (.keyValue kept) })

/-! ## Predicate construction (`scan/scan_meta.rs`)

`ScanInfo::to_scan::<SIZE, T>` first refuses (`None`) when the sent
`value_type` differs from the kind of the command, then dispatches on
`typ`; predicate types that need a literal parse it with the kind's
native parser and `.unwrap()` the result — a parse failure PANICS, it
does not return `None`.  The `ScanType` enum also has `SmallerThan` /
`BiggerThan`, which `to_scan` maps to scan variants of its own
vocabulary (`MetaScan` below). -/

inductive ScanType where
  | exact | unknown | inRange | smallerThan | biggerThan
  | unchanged | changed | decreased | increased | decreasedBy | increasedBy
  deriving DecidableEq

inductive ScanValue where
  | exactV (s : String)
  | rangeV (startS stopS : String)
  deriving DecidableEq

structure ScanInfo where
  typ : ScanType
  value : Option ScanValue
  deriving DecidableEq

inductive ValueType where
  | i8 | u8 | i16 | u16 | i32 | u32 | i64 | u64 | f32 | f64
  deriving DecidableEq

/-- The scan variants `to_scan` can construct (the vocabulary of
`scan_meta.rs`, which also names `SmallerThan` / `BiggerThan`). -/
inductive MetaScan (T : Type) where
  | exact (v : T)
  | unknown
  | inRange (lo hi : T)
  | smallerThan (v : T)
  | biggerThan (v : T)
  | unchanged
  | changed
  | decreased
  | increased
  | decreasedBy (v : T)
  | increasedBy (v : T)
  deriving DecidableEq

/-- The observable outcome of `to_scan`: `refused` for `None`,
`panicked` for a failed `.unwrap()`, `ok` for `Some(scan)`. -/
inductive ToScanResult (T : Type) where
  | refused
  | panicked
  | ok (scan : MetaScan T)
  deriving DecidableEq

/-- `ScanInfo::to_scan` for the kind `selfKind` whose literal parser is
`parse`, invoked with the UI-sent `value_type = vt`. -/
def toScan (parse : String → Option T) (selfKind : ValueType)
    (info : ScanInfo) (vt : ValueType) : ToScanResult T :=
  if vt ≠ selfKind then .refused
  else
    match info.typ, info.value with
    | .unknown, _ => .ok .unknown
    | .unchanged, _ => .ok .unchanged
    | .changed, _ => .ok .changed
    | .decreased, _ => .ok .decreased
    | .increased, _ => .ok .increased
    | .exact, some (.exactV s) =>
      match parse s with | some v => .ok (.exact v) | none => .panicked
    | .smallerThan, some (.exactV s) =>
      match parse s with | some v => .ok (.smallerThan v) | none => .panicked
    | .biggerThan, some (.exactV s) =>
      match parse s with | some v => .ok (.biggerThan v) | none => .panicked
    | .decreasedBy, some (.exactV s) =>
      match parse s with | some v => .ok (.decreasedBy v) | none => .panicked
    | .increasedBy, some (.exactV s) =>
      match parse s with | some v => .ok (.increasedBy v) | none => .panicked
    | .inRange, some (.rangeV a b) =>
      match parse a with
      | none => .panicked
      | some lo =>
        match parse b with
        | none => .panicked
        | some hi => .ok (.inRange lo hi)
    | _, _ => .refused

/-- Parse a run of decimal digits (at least one). -/
def parseDigits : List Char → Option Nat
  | [] => none
  | l => l.foldl
      (fun acc c =>
        acc.bind (fun n => if c.isDigit then some (n * 10 + (c.toNat - 48)) else none))
      (some 0)

/-- The native Rust parser of a signed `w`-byte integer kind
(`<$int>::from_str`): optional sign, decimal digits, range check. -/
def parseSigned (w : Nat) (s : String) : Option Int :=
  let core : List Char → Bool → Option Int := fun l neg =>
    (parseDigits l).bind fun n =>
      let v : Int := if neg then -(n : Int) else (n : Int)
      if intLo true w ≤ v ∧ v ≤ intHi true w then some v else none
  match s.data with
  | '-' :: rest => core rest true
  | '+' :: rest => core rest false
  | l => core l false

/-- The native Rust parser of an unsigned `w`-byte integer kind. -/
def parseUnsigned (w : Nat) (s : String) : Option Int :=
  let core : List Char → Option Int := fun l =>
    (parseDigits l).bind fun n =>
      if (n : Int) ≤ intHi false w then some (n : Int) else none
  match s.data with
  | '+' :: rest => core rest
  | l => core l

/-! ## Spec-side reference definitions

These two definitions are written from the specification's words (not
from the source); the corresponding theorems compare them with the
translations of the source above. -/

/-- Modelled from the spec, §4.2 compaction policy: applied only to
`KeyValue` with ≥ 2 entries; with `lo = min(keys)`, `hi = max(keys)`,
`span = hi − lo`, `slots = span/SIZE + 1`, take the first clause that
holds: Range if `len = slots`; Masked if `slots ≤ 64` (machine-word
bits) and `8 + slots < len·8` (word size in bytes), with a boolean
vector that is true exactly at occupied slots; ExcludedRange if
`len ≥ 0.95·slots` (the threshold is evaluated in `f32`, the arithmetic
the policy is stated in), storing the missing stride addresses;
Offsetted if `span ≤ 65535`, storing `key − lo` offsets; otherwise keep
`KeyValue`. -/
def specCompact (SIZE : Nat) (style : LocationsStyle T) : LocationsStyle T :=
  match style with
  | .keyValue entries =>
    if 2 ≤ entries.length then
      let keys := entries.map Prod.fst
      let lo := keys.min?.getD 0
      let hi := keys.max?.getD 0
      let span := hi - lo
      let slots := span / SIZE + 1
      let values := entries.map Prod.snd
      if entries.length = slots then
        .range lo (hi + 1) values
      else if slots ≤ 64 ∧ 8 + slots < entries.length * 8 then
        .masked lo ((rangeStepIncl lo hi SIZE).map (fun a => keys.contains a)) values
      else if excludedRangeWorth entries.length slots then
        .excludedRange lo (hi + 1)
          ((rangeStepIncl lo hi SIZE).filter (fun a => !keys.contains a)) values
      else if span ≤ 65535 then
        .offsetted lo (entries.map (fun p => (p.1 - lo, p.2)))
      else .keyValue entries
    else .keyValue entries
  | other => other

/-- Modelled from the spec (§4.3/§6/§7, amended): predicate construction
returns `None` (the scan is refused) when the sent value kind differs
from the command's kind, and when the value shape does not fit the
predicate type; when kind and shape fit but a numeric literal fails to
parse, it panics; otherwise it returns the constructed scan. -/
def specToScan (parse : String → Option T) (selfKind : ValueType)
    (info : ScanInfo) (vt : ValueType) : ToScanResult T :=
  if vt ≠ selfKind then .refused
  else
    match info.typ with
    | .unknown => .ok .unknown
    | .unchanged => .ok .unchanged
    | .changed => .ok .changed
    | .decreased => .ok .decreased
    | .increased => .ok .increased
    | .exact =>
      match info.value with
      | some (.exactV s) =>
        match parse s with | some v => .ok (.exact v) | none => .panicked
      | _ => .refused
    | .smallerThan =>
      match info.value with
      | some (.exactV s) =>
        match parse s with | some v => .ok (.smallerThan v) | none => .panicked
      | _ => .refused
    | .biggerThan =>
      match info.value with
      | some (.exactV s) =>
        match parse s with | some v => .ok (.biggerThan v) | none => .panicked
      | _ => .refused
    | .decreasedBy =>
      match info.value with
      | some (.exactV s) =>
        match parse s with | some v => .ok (.decreasedBy v) | none => .panicked
      | _ => .refused
    | .increasedBy =>
      match info.value with
      | some (.exactV s) =>
        match parse s with | some v => .ok (.increasedBy v) | none => .panicked
      | _ => .refused
    | .inRange =>
      match info.value with
      | some (.rangeV a b) =>
        match parse a with
        | none => .panicked
        | some lo =>
          match parse b with
          | none => .panicked
          | some hi => .ok (.inRange lo hi)
      | _ => .refused

/-! ## Data-structure invariants

A list of pairs represents a `BTreeMap` iteration exactly when its keys
are strictly ascending.  All key sets the scans construct share one
residue class modulo `SIZE` (they are `base + i*SIZE`); `AlignedKeys`
captures that. -/

/-- The keys of the entry list are strictly ascending (the `BTreeMap`
iteration order). -/
def KSorted (locs : List (Nat × T)) : Prop :=
  List.Pairwise (fun p q => p.1 < q.1) locs

/-- All keys are congruent modulo `SIZE`. -/
def AlignedKeys (SIZE : Nat) (locs : List (Nat × T)) : Prop :=
  ∀ p ∈ locs, ∀ q ∈ locs, p.1 % SIZE = q.1 % SIZE

instance : Decidable (KSorted (T := T) locs) :=
  inferInstanceAs (Decidable (List.Pairwise _ _))

instance : Decidable (AlignedKeys (T := T) SIZE locs) :=
  inferInstanceAs (Decidable (∀ p ∈ locs, ∀ q ∈ locs, _))

/-- A store is well formed when a `KeyValue` entry list is a sorted,
aligned `BTreeMap`; the other encodings carry no such obligation here. -/
def WellFormedKV (SIZE : Nat) : LocationsStyle T → Prop
  | .keyValue locs => KSorted locs ∧ AlignedKeys SIZE locs
  | _ => True

instance (SIZE : Nat) (s : LocationsStyle T) : Decidable (WellFormedKV SIZE s) := by
  unfold WellFormedKV
  cases s <;> infer_instance

/-- The safety contract of a first-scan result `R` (claim C10): every
iterated address points at a full `SIZE`-byte cell inside the region, a
`Range` store has exactly one value per iterated address, and the
lookups a re-scan performs on `R` — `value_at` at each iterated address
and the `SIZE`-byte slice of the fresh buffer `mem'` at that address —
are all in bounds. -/
def SafeFirstScan (SIZE : Nat) (info : RegionInfo) (mem' : List Nat)
    (R : Region T) : Prop :=
  (∀ a ∈ R.locations.addresses SIZE,
      info.base ≤ a ∧ a + SIZE ≤ info.base + info.regionSize)
  ∧ (∀ s e vals, R.locations = .range s e vals →
      vals.length = (LocationsStyle.addresses (T := T) SIZE (.range s e vals)).length)
  ∧ (∀ a ∈ R.locations.addresses SIZE,
      (R.locations.valueAt SIZE a).isSome
        ∧ (readBytes mem' (a - info.base) SIZE).isSome)

/-! ## Lemmas about stride lists -/

theorem strideList_zero (s step : Nat) : strideList s 0 step = [] := rfl

theorem strideList_succ (s n step : Nat) :
    strideList s (n + 1) step = s :: strideList (s + step) n step := by
  unfold strideList
  rw [List.range_succ_eq_map]
  simp only [List.map_cons, List.map_map, Nat.zero_mul, Nat.add_zero]
  refine congrArg₂ _ rfl (List.map_congr_left ?_)
  intro i _
  simp [Function.comp, Nat.succ_mul]
  omega

theorem length_strideList (s n step : Nat) : (strideList s n step).length = n := by
  simp [strideList]

theorem mem_strideList {s n step a : Nat} :
    a ∈ strideList s n step ↔ ∃ i, i < n ∧ a = s + i * step := by
  simp only [strideList, List.mem_map, List.mem_range]
  constructor
  · rintro ⟨i, hi, rfl⟩; exact ⟨i, hi, rfl⟩
  · rintro ⟨i, hi, rfl⟩; exact ⟨i, hi, rfl⟩

theorem strideList_sorted (s n : Nat) {step : Nat} (hstep : 0 < step) :
    List.Pairwise (· < ·) (strideList s n step) := by
  unfold strideList
  refine List.pairwise_map.mpr ?_
  have := List.pairwise_lt_range n
  refine this.imp ?_
  intro i j hij
  have : i * step < j * step := (Nat.mul_lt_mul_right hstep).mpr hij
  omega

theorem strideList_get? {s n step : Nat} {i : Nat} (hi : i < n) :
    (strideList s n step).get? i = some (s + i * step) := by
  unfold strideList
  rw [List.get?_map, List.get?_range hi]
  rfl

theorem rangeStepIncl_eq_strideList {s e step : Nat} (h : s ≤ e) :
    rangeStepIncl s e step = strideList s ((e - s) / step + 1) step := by
  simp [rangeStepIncl, h]

theorem rangeStep_succ_eq_incl (s e step : Nat) :
    rangeStep s (e + 1) step = rangeStepIncl s e step := by
  unfold rangeStep rangeStepIncl
  by_cases h : s ≤ e
  · rw [if_pos (by omega), if_pos h]
    have he : e + 1 - s - 1 = e - s := by omega
    rw [he]
  · rw [if_neg (by omega), if_neg h]

theorem mem_rangeStepIncl {s e step a : Nat} (hstep : 0 < step) :
    a ∈ rangeStepIncl s e step ↔ s ≤ a ∧ a ≤ e ∧ (a - s) % step = 0 := by
  by_cases hse : s ≤ e
  · rw [rangeStepIncl_eq_strideList hse, mem_strideList]
    constructor
    · rintro ⟨i, hi, rfl⟩
      refine ⟨by omega, ?_, by simp [Nat.add_sub_cancel_left, Nat.mul_mod_left]⟩
      have : i ≤ (e - s) / step := by omega
      have := Nat.mul_le_mul_right step this
      have := Nat.div_mul_le_self (e - s) step
      omega
    · rintro ⟨h1, h2, h3⟩
      refine ⟨(a - s) / step, ?_, ?_⟩
      · have : (a - s) / step ≤ (e - s) / step := Nat.div_le_div_right (by omega)
        omega
      · have := Nat.div_mul_cancel (Nat.dvd_of_mod_eq_zero h3)
        omega
  · simp only [rangeStepIncl, if_neg hse]
    simp only [List.not_mem_nil, false_iff]
    omega

theorem rangeStepIncl_sorted {s e step : Nat} (hstep : 0 < step) :
    List.Pairwise (· < ·) (rangeStepIncl s e step) := by
  unfold rangeStepIncl
  split
  · exact strideList_sorted _ _ hstep
  · exact List.Pairwise.nil

/-! ## Lemmas about sorted lists of naturals -/

theorem min?_isSome_of_ne_nil {l : List Nat} (h : l ≠ []) : ∃ m, l.min? = some m := by
  cases l with
  | nil => exact absurd rfl h
  | cons a t => exact ⟨t.foldl min a, rfl⟩

theorem max?_isSome_of_ne_nil {l : List Nat} (h : l ≠ []) : ∃ m, l.max? = some m := by
  cases l with
  | nil => exact absurd rfl h
  | cons a t => exact ⟨t.foldl max a, rfl⟩

theorem mem_of_min? {l : List Nat} {m : Nat} (h : l.min? = some m) : m ∈ l :=
  List.min?_mem (fun a b => min_choice a b) h

theorem le_of_min? {l : List Nat} {m : Nat} (h : l.min? = some m) :
    ∀ b ∈ l, m ≤ b :=
  (List.le_min?_iff (fun _ _ _ => le_min_iff) h).mp (le_refl m)

theorem mem_of_max? {l : List Nat} {m : Nat} (h : l.max? = some m) : m ∈ l :=
  List.max?_mem (fun a b => max_choice a b) h

theorem ge_of_max? {l : List Nat} {m : Nat} (h : l.max? = some m) :
    ∀ b ∈ l, b ≤ m :=
  (List.max?_le_iff (fun _ _ _ => max_le_iff) h).mp (le_refl m)

/-- Filtering a sorted list by membership in a sorted sublist of it
recovers the sublist. -/
theorem filter_contains_sorted :
    ∀ (S K : List Nat), List.Pairwise (· < ·) S → List.Pairwise (· < ·) K →
      K ⊆ S → S.filter (fun a => K.contains a) = K := by
  intro S
  induction S with
  | nil =>
    intro K _ _ hsub
    rw [List.eq_nil_of_subset_nil hsub]
    rfl
  | cons a S ih =>
    intro K hS hK hsub
    cases K with
    | nil => simp
    | cons k K =>
      by_cases hak : a = k
      · subst hak
        have hhead : (a :: K).contains a = true :=
          List.elem_iff.mpr (List.mem_cons_self a K)
        have htail : S.filter (fun x => (a :: K).contains x) = S.filter (fun x => K.contains x) := by
          refine List.filter_congr ?_
          intro x hx
          have hax : a < x := (List.pairwise_cons.mp hS).1 x hx
          simp only [List.contains_cons]
          have : (x == a) = false := by
            simp only [beq_eq_false_iff_ne, ne_eq]
            omega
          rw [this]
          simp
        have hKsub : K ⊆ S := by
          intro y hy
          have hky : a < y := (List.pairwise_cons.mp hK).1 y hy
          have : y ∈ a :: S := hsub (List.mem_cons_of_mem _ hy)
          rcases List.mem_cons.mp this with h | h
          · omega
          · exact h
        rw [List.filter_cons_of_pos hhead, htail,
          ih K (List.pairwise_cons.mp hS).2 (List.pairwise_cons.mp hK).2 hKsub]
      · have hkS : k ∈ S := by
          have : k ∈ a :: S := hsub (List.mem_cons_self _ _)
          rcases List.mem_cons.mp this with h | h
          · exact absurd h.symm hak
          · exact h
        have hak' : a < k := (List.pairwise_cons.mp hS).1 k hkS
        have hnotmem : a ∉ k :: K := by
          intro hmem
          rcases List.mem_cons.mp hmem with h | h
          · exact hak h
          · have := (List.pairwise_cons.mp hK).1 a h
            omega
        have hhead : ((k :: K).contains a) = false := by
          by_contra hc
          rw [Bool.not_eq_false] at hc
          exact hnotmem (List.elem_iff.mp hc)
        have hsub' : k :: K ⊆ S := by
          intro y hy
          have : y ∈ a :: S := hsub hy
          rcases List.mem_cons.mp this with h | h
          · subst h
            exact absurd hy hnotmem
          · exact h
        rw [List.filter_cons_of_neg (by rw [hhead]; exact Bool.false_ne_true),
          ih (k :: K) (List.pairwise_cons.mp hS).2 hK hsub']

/-- `buildMask` on a sorted stride and a sorted subset of it marks
exactly the members of the subset. -/
theorem buildMask_eq_map_contains :
    ∀ (S K : List Nat), List.Pairwise (· < ·) S → List.Pairwise (· < ·) K →
      K ⊆ S → buildMask S K = S.map (fun a => K.contains a) := by
  intro S
  induction S with
  | nil =>
    intro K _ _ hsub
    rw [List.eq_nil_of_subset_nil hsub]
    rfl
  | cons a S ih =>
    intro K hS hK hsub
    cases K with
    | nil =>
      show false :: buildMask S [] = _
      rw [ih [] (List.pairwise_cons.mp hS).2 List.Pairwise.nil (by simp)]
      simp
    | cons k K =>
      by_cases hak : a = k
      · subst hak
        have htail : S.map (fun x => (a :: K).contains x) = S.map (fun x => K.contains x) := by
          refine List.map_congr_left ?_
          intro x hx
          have hax : a < x := (List.pairwise_cons.mp hS).1 x hx
          simp only [List.contains_cons]
          have : (x == a) = false := by
            simp only [beq_eq_false_iff_ne, ne_eq]
            omega
          rw [this]
          simp
        have hKsub : K ⊆ S := by
          intro y hy
          have hky : a < y := (List.pairwise_cons.mp hK).1 y hy
          have : y ∈ a :: S := hsub (List.mem_cons_of_mem _ hy)
          rcases List.mem_cons.mp this with h | h
          · omega
          · exact h
        show (if a = a then true :: buildMask S K else _) = _
        rw [if_pos rfl, ih K (List.pairwise_cons.mp hS).2 (List.pairwise_cons.mp hK).2 hKsub]
        simp only [List.map_cons, htail]
        simp
      · have hkS : k ∈ S := by
          have : k ∈ a :: S := hsub (List.mem_cons_self _ _)
          rcases List.mem_cons.mp this with h | h
          · exact absurd h.symm hak
          · exact h
        have hnotmem : a ∉ k :: K := by
          intro hmem
          rcases List.mem_cons.mp hmem with h | h
          · exact hak h
          · have hka := (List.pairwise_cons.mp hK).1 a h
            have := (List.pairwise_cons.mp hS).1 k hkS
            omega
        have hsub' : k :: K ⊆ S := by
          intro y hy
          have : y ∈ a :: S := hsub hy
          rcases List.mem_cons.mp this with h | h
          · subst h
            exact absurd hy hnotmem
          · exact h
        show (if a = k then _ else false :: buildMask S (k :: K)) = _
        rw [if_neg hak, ih (k :: K) (List.pairwise_cons.mp hS).2 hK hsub']
        have hhead : ((k :: K).contains a) = false := by
          by_contra hc
          rw [Bool.not_eq_false] at hc
          exact hnotmem (List.elem_iff.mp hc)
        rw [List.map_cons, hhead]

/-- If filtering keeps the whole length, every element satisfies the
predicate. -/
theorem all_of_filter_length {α : Type _} :
    ∀ (S : List α) (p : α → Bool), (S.filter p).length = S.length →
      ∀ a ∈ S, p a = true := by
  intro S
  induction S with
  | nil => simp
  | cons a S ih =>
    intro p hlen b hb
    by_cases hpa : p a
    · rw [List.filter_cons_of_pos hpa] at hlen
      simp only [List.length_cons, Nat.add_right_cancel_iff] at hlen
      rcases List.mem_cons.mp hb with rfl | h
      · exact hpa
      · exact ih p hlen b h
    · rw [List.filter_cons_of_neg hpa] at hlen
      have := List.length_filter_le p S
      simp only [List.length_cons] at hlen
      omega

/-- A sorted list that is a subset of a sorted list of the same length
equals it. -/
theorem sorted_subset_length_eq {S K : List Nat}
    (hS : List.Pairwise (· < ·) S) (hK : List.Pairwise (· < ·) K)
    (hsub : K ⊆ S) (hlen : K.length = S.length) : K = S := by
  have hfe := filter_contains_sorted S K hS hK hsub
  have hlenf : (S.filter (fun a => K.contains a)).length = S.length := by
    rw [hfe, hlen]
  have hall := all_of_filter_length S (fun a => K.contains a) hlenf
  rw [← hfe]
  exact List.filter_eq_self.mpr hall

/-! ## Zip and enumeration lemmas -/

theorem zip_fst_snd {α β : Type _} :
    ∀ (l : List (α × β)), (l.map Prod.fst).zip (l.map Prod.snd) = l := by
  intro l
  induction l with
  | nil => rfl
  | cons p l ih => simp [ih]

theorem enumFrom_stride_zip {α : Type _} (step s : Nat) :
    ∀ (vals : List α) (k : Nat),
      (List.enumFrom k vals).map (fun p => (s + p.1 * step, p.2))
        = (strideList (s + k * step) vals.length step).zip vals := by
  intro vals
  induction vals with
  | nil => intro k; rfl
  | cons v vals ih =>
    intro k
    rw [List.enumFrom_cons, List.map_cons, List.length_cons, strideList_succ,
      List.zip_cons_cons, ih (k + 1)]
    have : s + k * step + step = s + (k + 1) * step := by ring
    rw [this]

theorem enum_stride_zip {α : Type _} (step s : Nat) (vals : List α) :
    vals.enum.map (fun p => (s + p.1 * step, p.2))
      = (strideList s vals.length step).zip vals := by
  have := enumFrom_stride_zip step s vals 0
  simpa [List.enum] using this

theorem enumFrom_mask_filterMap (step s : Nat) :
    ∀ (n k : Nat) (pred : Nat → Bool),
      (List.enumFrom k ((strideList (s + k * step) n step).map pred)).filterMap
          (fun p => if p.2 then some (s + p.1 * step) else none)
        = (strideList (s + k * step) n step).filter pred := by
  intro n
  induction n with
  | zero => intro k pred; rfl
  | succ n ih =>
    intro k pred
    rw [strideList_succ, List.map_cons, List.enumFrom_cons, List.filterMap_cons]
    have harg : s + k * step + step = s + (k + 1) * step := by ring
    rw [harg, ih (k + 1) pred]
    by_cases hp : pred (s + k * step)
    · rw [List.filter_cons_of_pos hp]
      simp [hp]
    · rw [Bool.not_eq_true] at hp
      rw [List.filter_cons_of_neg (by rw [hp]; exact Bool.false_ne_true)]
      simp [hp]

theorem enum_mask_filterMap (step s n : Nat) (pred : Nat → Bool) :
    ((strideList s n step).map pred).enum.filterMap
        (fun p => if p.2 then some (s + p.1 * step) else none)
      = (strideList s n step).filter pred := by
  have := enumFrom_mask_filterMap step s n 0 pred
  simpa [List.enum] using this

/-! ## Association-list lookup lemmas -/

theorem find?_key_of_mem {T : Type} :
    ∀ {locs : List (Nat × T)} {a : Nat} {v : T}, KSorted locs → (a, v) ∈ locs →
      locs.find? (fun p => p.1 == a) = some (a, v) := by
  intro locs
  induction locs with
  | nil => intro a v _ h; exact absurd h (List.not_mem_nil _)
  | cons q locs ih =>
    intro a v hsort hmem
    rcases List.mem_cons.mp hmem with rfl | htail
    · rw [List.find?_cons_of_pos _ (by simp)]
    · have hlt : q.1 < a := (List.pairwise_cons.mp hsort).1 (a, v) htail
      rw [List.find?_cons_of_neg _ (by simp; omega)]
      exact ih (List.pairwise_cons.mp hsort).2 htail

theorem key_unique {T : Type} :
    ∀ {locs : List (Nat × T)} {a : Nat} {v w : T}, KSorted locs →
      (a, v) ∈ locs → (a, w) ∈ locs → v = w := by
  intro locs
  induction locs with
  | nil => intro a v w _ h; exact absurd h (List.not_mem_nil _)
  | cons q locs ih =>
    intro a v w hsort hv hw
    have hkey : ∀ {u : T}, (a, u) ∈ locs → q.1 < a := by
      intro u hu
      exact (List.pairwise_cons.mp hsort).1 (a, u) hu
    rcases List.mem_cons.mp hv with rfl | hv'
    · rcases List.mem_cons.mp hw with h | hw'
      · exact (congrArg Prod.snd h).symm
      · exact absurd (hkey hw') (by simp)
    · rcases List.mem_cons.mp hw with rfl | hw'
      · exact absurd (hkey hv') (by simp)
      · exact ih (List.pairwise_cons.mp hsort).2 hv' hw'

theorem findIdx?_of_sorted_get? :
    ∀ {K : List Nat} {j a : Nat}, List.Pairwise (· < ·) K → K.get? j = some a →
      K.findIdx? (fun x => a == x) = some j := by
  intro K
  induction K with
  | nil => intro j a _ h; simp [List.get?] at h
  | cons b K ih =>
    intro j a hsort hget
    cases j with
    | zero =>
      rw [List.get?] at hget
      injection hget with hba
      subst hba
      rw [List.findIdx?_cons, if_pos (by simp)]
    | succ j =>
      rw [List.get?] at hget
      have hmem : a ∈ K := List.get?_mem hget
      have hba : b < a := (List.pairwise_cons.mp hsort).1 a hmem
      rw [List.findIdx?_cons, if_neg (by simp; omega)]
      have := ih (List.pairwise_cons.mp hsort).2 hget
      rw [List.findIdx?_succ, this]
      rfl

/-! ## Rank-counting lemmas (for `ExcludedRange` lookups) -/

theorem filter_lt_length_of_sorted :
    ∀ {K : List Nat} {j a : Nat}, List.Pairwise (· < ·) K → K.get? j = some a →
      (K.filter (fun x => decide (x < a))).length = j := by
  intro K
  induction K with
  | nil => intro j a _ h; simp [List.get?] at h
  | cons b K ih =>
    intro j a hsort hget
    cases j with
    | zero =>
      rw [List.get?] at hget
      injection hget with hba
      subst hba
      rw [List.filter_cons_of_neg (by simp)]
      have hnil : K.filter (fun x => decide (x < b)) = [] := by
        refine List.filter_eq_nil.mpr ?_
        intro x hx
        have := (List.pairwise_cons.mp hsort).1 x hx
        simp
        omega
      rw [hnil]
      rfl
    | succ j =>
      rw [List.get?] at hget
      have hmem : a ∈ K := List.get?_mem hget
      have hba : b < a := (List.pairwise_cons.mp hsort).1 a hmem
      rw [List.filter_cons_of_pos (by simp; omega)]
      rw [List.length_cons, ih (List.pairwise_cons.mp hsort).2 hget]

theorem range_filter_lt :
    ∀ (n i : Nat), (List.range n).filter (fun t => decide (t < i)) = List.range (min n i) := by
  intro n
  induction n with
  | zero => intro i; simp
  | succ n ih =>
    intro i
    rw [List.range_succ, List.filter_append, ih i]
    by_cases hni : n < i
    · rw [List.filter_cons_of_pos (by simp [hni])]
      have h1 : min n i = n := by omega
      have h2 : min (n + 1) i = n + 1 := by omega
      rw [h1, h2]
      exact (List.range_succ n).symm
    · rw [List.filter_cons_of_neg (by simp; omega)]
      simp only [List.filter_nil, List.append_nil]
      have h2 : min (n + 1) i = min n i := by omega
      rw [h2]

theorem strideList_filter_lt_length {s n step i : Nat} (hstep : 0 < step) (hin : i ≤ n) :
    ((strideList s n step).filter (fun x => decide (x < s + i * step))).length = i := by
  unfold strideList
  rw [List.filter_map, List.length_map]
  have hcongr : (List.range n).filter ((fun x => decide (x < s + i * step)) ∘ (fun t => s + t * step))
      = (List.range n).filter (fun t => decide (t < i)) := by
    refine List.filter_congr ?_
    intro t _
    simp only [Function.comp]
    by_cases h : t < i
    · have : t * step < i * step := (Nat.mul_lt_mul_right hstep).mpr h
      simp [h]
      omega
    · have : i * step ≤ t * step := Nat.mul_le_mul_right step (by omega)
      simp [h]
      omega
  rw [hcongr, range_filter_lt]
  simp [List.length_range]
  omega

theorem length_filter_partition {α : Type _} :
    ∀ (l : List α) (p q : α → Bool),
      (l.filter p).length
        = ((l.filter q).filter p).length + ((l.filter (fun a => !q a)).filter p).length := by
  intro l
  induction l with
  | nil => intro p q; rfl
  | cons a l ih =>
    intro p q
    have hl := ih p q
    by_cases hq : q a <;> by_cases hp : p a <;>
      simp [List.filter_cons, hq, hp] at hl ⊢ <;> omega

theorem sub_mod_eq_zero {k low S : Nat} (hle : low ≤ k) (h : k % S = low % S) :
    (k - low) % S = 0 := by
  obtain ⟨d, rfl⟩ : ∃ d, k = low + d := ⟨k - low, by omega⟩
  rw [Nat.add_sub_cancel_left]
  rcases Nat.eq_zero_or_pos S with rfl | hS
  · simp only [Nat.mod_zero] at h ⊢
    omega
  · rw [Nat.add_mod] at h
    have h1 : d % S < S := Nat.mod_lt _ hS
    have h2 : low % S < S := Nat.mod_lt _ hS
    by_cases hc : low % S + d % S < S
    · rw [Nat.mod_eq_of_lt hc] at h
      omega
    · rw [Nat.mod_eq_sub_mod (by omega), Nat.mod_eq_of_lt (by omega)] at h
      omega

theorem get?_vals_of_key {T : Type} {locs : List (Nat × T)} {i a : Nat} {v : T}
    (hsort : KSorted locs) (hk : (locs.map Prod.fst).get? i = some a)
    (hmem : (a, v) ∈ locs) : (locs.map Prod.snd).get? i = some v := by
  rw [List.get?_map] at hk ⊢
  rcases Option.map_eq_some'.mp hk with ⟨p, hp, hpa⟩
  have hpmem : p ∈ locs := List.get?_mem hp
  have hpeq : p = (a, p.2) := by
    cases p
    simp only at hpa
    simp [hpa]
  rw [hpeq] at hpmem
  have hv := key_unique hsort hmem hpmem
  rw [hp]
  simp [← hv]

theorem find?_shift {T : Type} {low : Nat} :
    ∀ {locs : List (Nat × T)} {a : Nat} {v : T}, KSorted locs →
      (∀ p ∈ locs, low ≤ p.1) → (a, v) ∈ locs →
      (locs.map (fun p => (p.1 - low, p.2))).find? (fun q => q.1 == a - low)
        = some (a - low, v) := by
  intro locs
  induction locs with
  | nil => intro a v _ _ h; exact absurd h (List.not_mem_nil _)
  | cons q locs ih =>
    intro a v hsort hlb hmem
    rcases List.mem_cons.mp hmem with rfl | htail
    · rw [List.map_cons, List.find?_cons_of_pos _ (by simp)]
    · have hqa : q.1 < a := (List.pairwise_cons.mp hsort).1 (a, v) htail
      have hql : low ≤ q.1 := hlb q (List.mem_cons_self _ _)
      rw [List.map_cons, List.find?_cons_of_neg _ (by simp; omega)]
      exact ih (List.pairwise_cons.mp hsort).2
        (fun p hp => hlb p (List.mem_cons_of_mem _ hp)) htail

/-! ## The master compaction theorem

For a sorted, aligned entry list (the invariants of every `BTreeMap`
the scans build), `compactBody` — and hence `try_compact` — preserves
the `(address, value)` pairs, the address sequence, and point lookups. -/

theorem compactBody_spec {T : Type} (SIZE : Nat) (locs : List (Nat × T))
    (low high : Nat) (hS : 0 < SIZE)
    (hsort : KSorted locs) (halign : AlignedKeys SIZE locs)
    (hlowmem : low ∈ locs.map Prod.fst)
    (hlow : ∀ k ∈ locs.map Prod.fst, low ≤ k)
    (hhigh : ∀ k ∈ locs.map Prod.fst, k ≤ high) :
    LocationsStyle.intoLocations SIZE (LocationsStyle.compactBody SIZE locs low high) = locs
    ∧ LocationsStyle.addresses SIZE (LocationsStyle.compactBody SIZE locs low high)
        = locs.map Prod.fst
    ∧ ∀ a v, (a, v) ∈ locs →
        LocationsStyle.valueAt SIZE (LocationsStyle.compactBody SIZE locs low high) a = some v := by
  have hksorted : List.Pairwise (· < ·) (locs.map Prod.fst) :=
    List.pairwise_map.mpr hsort
  have hlowhigh : low ≤ high := hhigh low hlowmem
  have hsub : locs.map Prod.fst ⊆ rangeStepIncl low high SIZE := by
    intro k hk
    rw [mem_rangeStepIncl hS]
    refine ⟨hlow k hk, hhigh k hk, ?_⟩
    rcases List.mem_map.mp hk with ⟨p, hp, rfl⟩
    rcases List.mem_map.mp hlowmem with ⟨p0, hp0, heq0⟩
    refine sub_mod_eq_zero (hlow _ hk) ?_
    rw [← heq0]
    exact halign p hp p0 hp0
  have hstrsorted : List.Pairwise (· < ·) (rangeStepIncl low high SIZE) :=
    rangeStepIncl_sorted hS
  have hstride : rangeStepIncl low high SIZE
      = strideList low ((high - low) / SIZE + 1) SIZE :=
    rangeStepIncl_eq_strideList hlowhigh
  have hstridelen : (rangeStepIncl low high SIZE).length = (high - low) / SIZE + 1 := by
    rw [hstride, length_strideList]
  have hfilter : (rangeStepIncl low high SIZE).filter
      (fun x => (locs.map Prod.fst).contains x) = locs.map Prod.fst :=
    filter_contains_sorted _ _ hstrsorted hksorted hsub
  -- rank bookkeeping for a key (a, v) ∈ locs
  have hrank : ∀ {a : Nat} {v : T}, (a, v) ∈ locs →
      ∃ i j, a = low + i * SIZE ∧ i < (high - low) / SIZE + 1 ∧
        (locs.map Prod.fst).get? j = some a ∧
        ((rangeStepIncl low high SIZE).filter (fun x => decide (x < a))).length = i ∧
        ((locs.map Prod.fst).filter (fun x => decide (x < a))).length = j := by
    intro a v hmem
    have hamem : a ∈ locs.map Prod.fst := List.mem_map.mpr ⟨(a, v), hmem, rfl⟩
    have hastr : a ∈ strideList low ((high - low) / SIZE + 1) SIZE := by
      rw [← hstride]
      exact hsub hamem
    rcases mem_strideList.mp hastr with ⟨i, hi, rfl⟩
    rcases List.get?_of_mem hamem with ⟨j, hj⟩
    refine ⟨i, j, rfl, hi, hj, ?_, ?_⟩
    · rw [hstride]
      exact strideList_filter_lt_length hS (by omega)
    · exact filter_lt_length_of_sorted hksorted hj
  unfold LocationsStyle.compactBody
  by_cases h1 : locs.length = (high - low) / SIZE + 1
  · -- Range branch: every stride slot is occupied, keys = the stride
    rw [if_pos h1]
    have hkeq : locs.map Prod.fst = rangeStepIncl low high SIZE := by
      refine sorted_subset_length_eq hstrsorted hksorted hsub ?_
      rw [List.length_map, hstridelen, h1]
    refine ⟨?_, ?_, ?_⟩
    · show (locs.map Prod.snd).enum.map (fun p => (low + p.1 * SIZE, p.2)) = locs
      rw [enum_stride_zip, List.length_map, h1, ← hstride, ← hkeq, zip_fst_snd]
    · show rangeStep low (high + 1) SIZE = locs.map Prod.fst
      rw [rangeStep_succ_eq_incl, hkeq]
    · intro a v hmem
      rcases hrank hmem with ⟨i, j, ha, hi, hj, hstri, hkeyi⟩
      have hij : i = j := by
        have := hkeyi
        rw [hkeq] at this
        rw [hstri] at this
        omega
      show LocationsStyle.valueAt SIZE (.range low (high + 1) (locs.map Prod.snd)) a = some v
      rw [LocationsStyle.valueAt, if_neg (by omega)]
      have hdiv : (a - low) / SIZE = i := by
        rw [ha, Nat.add_sub_cancel_left, Nat.mul_div_left i hS]
      rw [hdiv]
      refine get?_vals_of_key hsort ?_ hmem
      rw [hkeq, hstride, strideList_get? hi, ha]
  · rw [if_neg h1]
    by_cases h2 : (high - low) / SIZE + 1 ≤ 64 ∧
        8 + ((high - low) / SIZE + 1) < locs.length * 8
    · -- Masked branch
      rw [if_pos h2]
      have hmask : buildMask (rangeStepIncl low high SIZE) (locs.map Prod.fst)
          = (rangeStepIncl low high SIZE).map
              (fun x => (locs.map Prod.fst).contains x) :=
        buildMask_eq_map_contains _ _ hstrsorted hksorted hsub
      have haddr : (buildMask (rangeStepIncl low high SIZE)
            (locs.map Prod.fst)).enum.filterMap
            (fun p => if p.2 then some (low + p.1 * SIZE) else none)
          = locs.map Prod.fst := by
        rw [hmask, hstride, enum_mask_filterMap, ← hstride, hfilter]
      refine ⟨?_, haddr, ?_⟩
      · show (((buildMask (rangeStepIncl low high SIZE)
            (locs.map Prod.fst)).enum.filterMap
              (fun p => if p.2 then some p.1 else none)).zip
            (locs.map Prod.snd)).map (fun p => (low + p.1 * SIZE, p.2)) = locs
        have hmapped : ((buildMask (rangeStepIncl low high SIZE)
              (locs.map Prod.fst)).enum.filterMap
              (fun p => if p.2 then some p.1 else none)).map
              (fun i => low + i * SIZE)
            = locs.map Prod.fst := by
          rw [List.map_filterMap]
          rw [show (fun p : Nat × Bool =>
              Option.map (fun i => low + i * SIZE)
                (if p.2 then some p.1 else none))
            = (fun p : Nat × Bool =>
                if p.2 then some (low + p.1 * SIZE) else none) from ?_]
          · exact haddr
          · funext p
            by_cases hp : p.2 <;> simp [hp]
        calc (((buildMask (rangeStepIncl low high SIZE)
              (locs.map Prod.fst)).enum.filterMap
                (fun p => if p.2 then some p.1 else none)).zip
              (locs.map Prod.snd)).map (fun p => (low + p.1 * SIZE, p.2))
            = (((buildMask (rangeStepIncl low high SIZE)
                (locs.map Prod.fst)).enum.filterMap
                  (fun p => if p.2 then some p.1 else none)).map
                (fun i => low + i * SIZE)).zip (locs.map Prod.snd) := by
              rw [List.zip_map_left]
              refine (List.map_congr_left ?_).symm
              intro p _
              rfl
          _ = locs := by rw [hmapped, zip_fst_snd]
      · intro a v hmem
        rcases hrank hmem with ⟨i, j, ha, hi, hj, hstri, hkeyi⟩
        show (((buildMask (rangeStepIncl low high SIZE)
            (locs.map Prod.fst)).enum.filterMap
              (fun p => if p.2 then some (low + p.1 * SIZE) else none)).findIdx?
            (fun address => a == address)).bind
            (fun index => (locs.map Prod.snd).get? index) = some v
        rw [haddr, findIdx?_of_sorted_get? hksorted hj]
        exact get?_vals_of_key hsort hj hmem
    · rw [if_neg h2]
      by_cases h3 : excludedRangeWorth locs.length ((high - low) / SIZE + 1)
      · -- ExcludedRange branch
        rw [if_pos h3]
        have haddr : (rangeStep low (high + 1) SIZE).filter
            (fun x => !((rangeStepIncl low high SIZE).filter
              (fun y => !(locs.map Prod.fst).contains y)).contains x)
            = locs.map Prod.fst := by
          rw [rangeStep_succ_eq_incl]
          rw [List.filter_congr (q := fun x => (locs.map Prod.fst).contains x) ?_]
          · exact hfilter
          · intro x hx
            show (!((rangeStepIncl low high SIZE).filter
                (fun y => !(locs.map Prod.fst).contains y)).contains x)
              = (locs.map Prod.fst).contains x
            by_cases hmem : (locs.map Prod.fst).contains x
            · have hexcl : ((rangeStepIncl low high SIZE).filter
                  (fun y => !(locs.map Prod.fst).contains y)).contains x = false := by
                by_contra hc
                rw [Bool.not_eq_false] at hc
                have := List.mem_filter.mp (List.elem_iff.mp hc)
                rw [hmem] at this
                simp at this
              rw [hexcl, hmem]
              rfl
            · rw [Bool.not_eq_true] at hmem
              have hexcl : ((rangeStepIncl low high SIZE).filter
                  (fun y => !(locs.map Prod.fst).contains y)).contains x = true := by
                refine List.elem_iff.mpr (List.mem_filter.mpr ⟨hx, ?_⟩)
                rw [hmem]
                rfl
              rw [hexcl, hmem]
              rfl
        refine ⟨?_, haddr, ?_⟩
        · show ((rangeStep low (high + 1) SIZE).filter _).zip (locs.map Prod.snd) = locs
          rw [haddr, zip_fst_snd]
        · intro a v hmem
          rcases hrank hmem with ⟨i, j, ha, hi, hj, hstri, hkeyi⟩
          have hpart := length_filter_partition (rangeStepIncl low high SIZE)
            (fun x => decide (x < a)) (fun x => (locs.map Prod.fst).contains x)
          rw [hfilter, hstri, hkeyi] at hpart
          show LocationsStyle.valueAt SIZE
            (.excludedRange low (high + 1)
              ((rangeStepIncl low high SIZE).filter
                (fun y => !(locs.map Prod.fst).contains y))
              (locs.map Prod.snd)) a = some v
          rw [LocationsStyle.valueAt, if_neg (by omega)]
          simp only
          have hdiv : (a - low) / SIZE = i := by
            rw [ha, Nat.add_sub_cancel_left, Nat.mul_div_left i hS]
          rw [hdiv]
          have hsm : (((rangeStepIncl low high SIZE).filter
              (fun y => !(locs.map Prod.fst).contains y)).filter
              (fun e => decide (e < a))).length = i - j := by
            omega
          rw [hsm, if_neg (by omega)]
          have hij : i - (i - j) = j := by omega
          rw [hij]
          exact get?_vals_of_key hsort hj hmem
      · rw [if_neg h3]
        by_cases h4 : high - low ≤ 65535
        · -- Offsetted branch
          rw [if_pos h4]
          have hlb : ∀ p ∈ locs, low ≤ p.1 := by
            intro p hp
            exact hlow p.1 (List.mem_map.mpr ⟨p, hp, rfl⟩)
          refine ⟨?_, ?_, ?_⟩
          · show (locs.map (fun p => (p.1 - low, p.2))).map
                (fun p => (low + p.1, p.2)) = locs
            rw [List.map_map]
            conv_rhs => rw [← List.map_id locs]
            refine List.map_congr_left ?_
            intro p hp
            have := hlb p hp
            simp only [Function.comp, id]
            cases p
            simp only [Prod.mk.injEq]
            constructor
            · simp only at this ⊢
              omega
            · trivial
          · show (locs.map (fun p => (p.1 - low, p.2))).map
                (fun p => low + p.1) = locs.map Prod.fst
            rw [List.map_map]
            refine List.map_congr_left ?_
            intro p hp
            have := hlb p hp
            simp only [Function.comp]
            omega
          · intro a v hmem
            show LocationsStyle.valueAt SIZE
              (.offsetted low (locs.map (fun p => (p.1 - low, p.2)))) a = some v
            have hla : low ≤ a :=
              hlow a (List.mem_map.mpr ⟨(a, v), hmem, rfl⟩)
            have hha : a ≤ high :=
              hhigh a (List.mem_map.mpr ⟨(a, v), hmem, rfl⟩)
            rw [LocationsStyle.valueAt, if_neg (by omega)]
            have hmod : (a - low) % 65536 = a - low := Nat.mod_eq_of_lt (by omega)
            rw [hmod, find?_shift hsort hlb hmem]
            rfl
        · -- KeyValue fallback
          rw [if_neg h4]
          refine ⟨rfl, rfl, ?_⟩
          intro a v hmem
          show ((locs.find? (fun p => p.1 == a)).map Prod.snd) = some v
          rw [find?_key_of_mem hsort hmem]
          rfl

theorem tryCompact_keyValue_spec {T : Type} (SIZE : Nat) (locs : List (Nat × T))
    (hS : 0 < SIZE) (hsort : KSorted locs) (halign : AlignedKeys SIZE locs) :
    LocationsStyle.intoLocations SIZE (LocationsStyle.tryCompact SIZE (.keyValue locs))
        = locs
    ∧ LocationsStyle.addresses SIZE (LocationsStyle.tryCompact SIZE (.keyValue locs))
        = locs.map Prod.fst
    ∧ ∀ a v, (a, v) ∈ locs →
        LocationsStyle.valueAt SIZE (LocationsStyle.tryCompact SIZE (.keyValue locs)) a
          = some v := by
  by_cases hlen : locs.length ≤ 1
  · have heq : LocationsStyle.tryCompact SIZE (.keyValue locs) = .keyValue locs := by
      show (if locs.length ≤ 1 then LocationsStyle.keyValue locs
          else LocationsStyle.compactBody SIZE locs ((locs.map Prod.fst).min?.getD 0)
            ((locs.map Prod.fst).max?.getD 0)) = LocationsStyle.keyValue locs
      rw [if_pos hlen]
    rw [heq]
    refine ⟨rfl, rfl, ?_⟩
    intro a v hmem
    show ((locs.find? (fun p => p.1 == a)).map Prod.snd) = some v
    rw [find?_key_of_mem hsort hmem]
    rfl
  · have hne : locs.map Prod.fst ≠ [] := by
      intro hnil
      rw [List.map_eq_nil] at hnil
      subst hnil
      simp at hlen
    obtain ⟨low, hmin⟩ := min?_isSome_of_ne_nil hne
    obtain ⟨high, hmax⟩ := max?_isSome_of_ne_nil hne
    have heq : LocationsStyle.tryCompact SIZE (.keyValue locs)
        = LocationsStyle.compactBody SIZE locs low high := by
      show (if locs.length ≤ 1 then LocationsStyle.keyValue locs
          else LocationsStyle.compactBody SIZE locs ((locs.map Prod.fst).min?.getD 0)
            ((locs.map Prod.fst).max?.getD 0))
        = LocationsStyle.compactBody SIZE locs low high
      rw [if_neg hlen, hmin, hmax]
      rfl
    rw [heq]
    exact compactBody_spec SIZE locs low high hS hsort halign
      (mem_of_min? hmin) (le_of_min? hmin) (ge_of_max? hmax)

/-- `try_compact` implements the spec's compaction policy clause for
clause (the two definitions differ only in how the `Masked` bit vector
is phrased, which coincides on sorted, aligned maps). -/
theorem tryCompact_eq_specCompact {T : Type} (SIZE : Nat) (style : LocationsStyle T)
    (hS : 0 < SIZE) (hwf : WellFormedKV SIZE style) :
    LocationsStyle.tryCompact SIZE style = specCompact SIZE style := by
  cases style with
  | keyValue locs =>
    obtain ⟨hsort, halign⟩ := hwf
    by_cases hlen : locs.length ≤ 1
    · have h1 : LocationsStyle.tryCompact SIZE (.keyValue locs) = .keyValue locs := by
        show (if locs.length ≤ 1 then LocationsStyle.keyValue locs
            else LocationsStyle.compactBody SIZE locs ((locs.map Prod.fst).min?.getD 0)
              ((locs.map Prod.fst).max?.getD 0)) = LocationsStyle.keyValue locs
        rw [if_pos hlen]
      rw [h1]
      show LocationsStyle.keyValue locs
        = (if 2 ≤ locs.length then _ else LocationsStyle.keyValue locs)
      rw [if_neg (by omega)]
    · have hne : locs.map Prod.fst ≠ [] := by
        intro hnil
        rw [List.map_eq_nil] at hnil
        subst hnil
        simp at hlen
      obtain ⟨low, hmin⟩ := min?_isSome_of_ne_nil hne
      obtain ⟨high, hmax⟩ := max?_isSome_of_ne_nil hne
      have hksorted : List.Pairwise (· < ·) (locs.map Prod.fst) :=
        List.pairwise_map.mpr hsort
      have hsub : locs.map Prod.fst ⊆ rangeStepIncl low high SIZE := by
        intro k hk
        rw [mem_rangeStepIncl hS]
        refine ⟨le_of_min? hmin k hk, ge_of_max? hmax k hk, ?_⟩
        rcases List.mem_map.mp hk with ⟨p, hp, rfl⟩
        rcases List.mem_map.mp (mem_of_min? hmin) with ⟨p0, hp0, heq0⟩
        refine sub_mod_eq_zero (le_of_min? hmin _ hk) ?_
        rw [← heq0]
        exact halign p hp p0 hp0
      have hmaskeq : buildMask (rangeStepIncl low high SIZE) (locs.map Prod.fst)
          = (rangeStepIncl low high SIZE).map
              (fun a => (locs.map Prod.fst).contains a) :=
        buildMask_eq_map_contains _ _ (rangeStepIncl_sorted hS) hksorted hsub
      show (if locs.length ≤ 1 then LocationsStyle.keyValue locs
          else LocationsStyle.compactBody SIZE locs ((locs.map Prod.fst).min?.getD 0)
            ((locs.map Prod.fst).max?.getD 0)) = _
      rw [if_neg hlen, hmin, hmax]
      show LocationsStyle.compactBody SIZE locs low high
        = (if 2 ≤ locs.length then _ else LocationsStyle.keyValue locs)
      rw [if_pos (show 2 ≤ locs.length by omega), hmin, hmax]
      simp only [Option.getD_some]
      show LocationsStyle.compactBody SIZE locs low high
        = (if locs.length = (high - low) / SIZE + 1 then
            LocationsStyle.range low (high + 1) (locs.map Prod.snd)
          else if (high - low) / SIZE + 1 ≤ 64 ∧
              8 + ((high - low) / SIZE + 1) < locs.length * 8 then
            LocationsStyle.masked low
              ((rangeStepIncl low high SIZE).map
                (fun a => (locs.map Prod.fst).contains a))
              (locs.map Prod.snd)
          else if excludedRangeWorth locs.length ((high - low) / SIZE + 1) then
            LocationsStyle.excludedRange low (high + 1)
              ((rangeStepIncl low high SIZE).filter
                (fun a => !(locs.map Prod.fst).contains a))
              (locs.map Prod.snd)
          else if high - low ≤ 65535 then
            LocationsStyle.offsetted low (locs.map (fun p => (p.1 - low, p.2)))
          else LocationsStyle.keyValue locs)
      unfold LocationsStyle.compactBody
      by_cases h1 : locs.length = (high - low) / SIZE + 1
      · rw [if_pos h1, if_pos h1]
      · rw [if_neg h1, if_neg h1]
        by_cases h2 : (high - low) / SIZE + 1 ≤ 64 ∧
            8 + ((high - low) / SIZE + 1) < locs.length * 8
        · rw [if_pos h2, if_pos h2, hmaskeq]
        · rw [if_neg h2, if_neg h2]
  | sameValue locations value => rfl
  | range s e values => rfl
  | excludedRange s e excluded values => rfl
  | offsetted base offsets => rfl
  | masked base mask values => rfl

/-! ## Scan-engine lemmas -/

theorem mem_windowsStep {SIZE : Nat} {mem : List Nat} {p : Nat × List Nat}
    (h : p ∈ windowsStep SIZE mem) :
    ∃ i, p.1 = i * SIZE ∧ p.1 + SIZE ≤ mem.length
      ∧ p.2 = (mem.drop p.1).take SIZE := by
  unfold windowsStep at h
  split at h
  case isTrue hle =>
    rcases List.mem_map.mp h with ⟨i, hi, rfl⟩
    rw [List.mem_range] at hi
    refine ⟨i, rfl, ?_, rfl⟩
    have h1 : i ≤ (mem.length - SIZE) / SIZE := by omega
    have h2 : i * SIZE ≤ (mem.length - SIZE) / SIZE * SIZE :=
      Nat.mul_le_mul_right SIZE h1
    have h3 := Nat.div_mul_le_self (mem.length - SIZE) SIZE
    omega
  case isFalse => exact absurd h (List.not_mem_nil _)

theorem windowsStep_fst_pairwise {SIZE : Nat} (mem : List Nat) (hS : 0 < SIZE) :
    List.Pairwise (fun p q : Nat × List Nat => p.1 < q.1) (windowsStep SIZE mem) := by
  unfold windowsStep
  split
  · refine List.pairwise_map.mpr ?_
    refine (List.pairwise_lt_range _).imp ?_
    intro i j hij
    have : i * SIZE < j * SIZE := (Nat.mul_lt_mul_right hS).mpr hij
    simpa using this
  · exact List.Pairwise.nil

theorem optFilterMap_all_keep {α : Type _} {f : α → Option (Option α)} :
    ∀ {l : List α}, (∀ a ∈ l, f a = some (some a)) → optFilterMap f l = some l := by
  intro l
  induction l with
  | nil => intro _; rfl
  | cons a l ih =>
    intro h
    have ha := h a (List.mem_cons_self _ _)
    have hrest := ih (fun b hb => h b (List.mem_cons_of_mem _ hb))
    simp [optFilterMap, ha, hrest]

theorem get?_isSome_of_lt {α : Type _} {l : List α} {n : Nat} (h : n < l.length) :
    (l.get? n).isSome := by
  rw [List.get?_eq_getElem?, List.getElem?_eq_getElem h]
  rfl

/-- Re-scanning an `Exact` result with the same predicate over the same
bytes keeps every location: the re-scan returns the very same region. -/
theorem rerun_run_exact_eq {T : Type} (ops : ScannableOps T) (SIZE : Nat) (v : T)
    (info : RegionInfo) (mem : List Nat) :
    Scan.rerun ops SIZE (.exact v) (Scan.run ops SIZE (.exact v) info mem) mem
      = some (Scan.run ops SIZE (.exact v) info mem) := by
  have hall : ∀ a ∈ (windowsStep SIZE mem).filterMap
      (fun p => if ops.eqB v p.2 then some (info.base + p.1) else none),
      (if a < info.base then none
        else (readBytes mem (a - info.base) SIZE).map
          (fun new => if ops.eqB v new then some a else none)) = some (some a) := by
    intro a ha
    rcases List.mem_filterMap.mp ha with ⟨p, hp, hpa⟩
    rcases mem_windowsStep hp with ⟨i, hio, hbound, hw⟩
    by_cases hc : ops.eqB v p.2
    · rw [if_pos hc] at hpa
      injection hpa with hpa
      subst hpa
      rw [if_neg (by omega)]
      have hsub : info.base + p.1 - info.base = p.1 := by omega
      rw [hsub]
      have hread : readBytes mem p.1 SIZE = some ((mem.drop p.1).take SIZE) := by
        unfold readBytes
        rw [if_pos hbound]
      rw [hread, ← hw, Option.map_some']
      rw [if_pos hc]
    · rw [if_neg hc] at hpa
      exact absurd hpa (by simp)
  show (optFilterMap
      (fun addr =>
        if addr < info.base then none
        else (readBytes mem (addr - info.base) SIZE).map
          (fun new => if ops.eqB v new then some addr else none))
      ((windowsStep SIZE mem).filterMap
        (fun p => if ops.eqB v p.2 then some (info.base + p.1) else none))).map
    (fun kept => ({ info := info, locations := .sameValue kept v } : Region T))
    = some (Scan.run ops SIZE (.exact v) info mem)
  rw [optFilterMap_all_keep hall]
  rfl

/-! ## First-scan safety (claim C10), one lemma per `run` arm -/

theorem run_exact_safe {T : Type} (ops : ScannableOps T) (SIZE : Nat) (v : T)
    (info : RegionInfo) (mem mem' : List Nat) (hS : 0 < SIZE)
    (hmem : mem.length = info.regionSize) (hmem' : mem'.length = info.regionSize) :
    SafeFirstScan SIZE info mem' (Scan.run ops SIZE (.exact v) info mem) := by
  have hshape : ∀ a ∈ (windowsStep SIZE mem).filterMap
      (fun p => if ops.eqB v p.2 then some (info.base + p.1) else none),
      ∃ o, a = info.base + o ∧ o + SIZE ≤ mem.length := by
    intro a ha
    rcases List.mem_filterMap.mp ha with ⟨p, hp, hpa⟩
    rcases mem_windowsStep hp with ⟨i, _, hbound, _⟩
    by_cases hc : ops.eqB v p.2
    · rw [if_pos hc] at hpa
      injection hpa with h
      exact ⟨p.1, h.symm, hbound⟩
    · rw [if_neg hc] at hpa
      exact absurd hpa (by simp)
  refine ⟨?_, ?_, ?_⟩
  · intro a ha
    rcases hshape a ha with ⟨o, rfl, hb⟩
    omega
  · intro s e vals h
    exact LocationsStyle.noConfusion h
  · intro a ha
    rcases hshape a ha with ⟨o, rfl, hb⟩
    refine ⟨rfl, ?_⟩
    have ho : info.base + o - info.base = o := by omega
    rw [ho]
    unfold readBytes
    rw [if_pos (by omega)]
    rfl

theorem run_inRange_safe {T : Type} (ops : ScannableOps T) (SIZE : Nat) (lo hi : T)
    (info : RegionInfo) (mem mem' : List Nat) (hS : 0 < SIZE)
    (hmem : mem.length = info.regionSize) (hmem' : mem'.length = info.regionSize) :
    SafeFirstScan SIZE info mem' (Scan.run ops SIZE (.inRange lo hi) info mem) := by
  set L2 := (windowsStep SIZE mem).filterMap
    (fun p =>
      if ops.cmpB lo p.2 != Ordering.gt && ops.cmpB hi p.2 != Ordering.lt then
        some (info.base + p.1, ops.fromBytes p.2)
      else none) with hL2
  have hshape : ∀ q ∈ L2, ∃ i, q.1 = info.base + i * SIZE
      ∧ i * SIZE + SIZE ≤ mem.length := by
    intro q hq
    rw [hL2, List.mem_filterMap] at hq
    rcases hq with ⟨p, hp, hpq⟩
    rcases mem_windowsStep hp with ⟨i, hio, hbound, _⟩
    by_cases hc : ops.cmpB lo p.2 != Ordering.gt && ops.cmpB hi p.2 != Ordering.lt
    · rw [if_pos hc] at hpq
      injection hpq with h
      subst h
      exact ⟨i, by rw [← hio], by rw [← hio]; exact hbound⟩
    · rw [if_neg hc] at hpq
      exact absurd hpq (by simp)
  have hsorted : KSorted L2 := by
    rw [hL2]
    refine List.pairwise_filterMap.mpr
      (((windowsStep_fst_pairwise mem hS)).imp ?_)
    intro p p' hpp' b hb b' hb'
    by_cases hc : ops.cmpB lo p.2 != Ordering.gt && ops.cmpB hi p.2 != Ordering.lt
    · by_cases hc' : ops.cmpB lo p'.2 != Ordering.gt && ops.cmpB hi p'.2 != Ordering.lt
      · rw [if_pos hc] at hb
        rw [if_pos hc'] at hb'
        rw [Option.mem_def] at hb hb'
        injection hb with hb
        injection hb' with hb'
        rw [← hb, ← hb']
        simp only
        omega
      · rw [if_neg hc'] at hb'
        exact absurd hb' (by simp)
    · rw [if_neg hc] at hb
      exact absurd hb (by simp)
  have halign : AlignedKeys SIZE L2 := by
    intro p hp q hq
    rcases hshape p hp with ⟨i, hpi, _⟩
    rcases hshape q hq with ⟨j, hqj, _⟩
    rw [hpi, hqj, Nat.add_mul_mod_self_right, Nat.add_mul_mod_self_right]
  obtain ⟨hinto, haddr, hval⟩ := tryCompact_keyValue_spec SIZE L2 hS hsorted halign
  refine ⟨?_, ?_, ?_⟩
  · intro a ha
    have ha' : a ∈ L2.map Prod.fst := by
      rw [← haddr]
      exact ha
    rcases List.mem_map.mp ha' with ⟨q, hq, rfl⟩
    rcases hshape q hq with ⟨i, hqi, hbound⟩
    rw [hqi]
    omega
  · intro s e vals h
    have h' : LocationsStyle.tryCompact SIZE (.keyValue L2) = .range s e vals := h
    rw [h'] at hinto haddr
    have hlen1 : vals.length = L2.length := by
      have := congrArg List.length hinto
      simpa [LocationsStyle.intoLocations] using this
    have hlen2 : (LocationsStyle.addresses (T := T) SIZE (.range s e vals)).length
        = L2.length := by
      have := congrArg List.length haddr
      simpa using this
    omega
  · intro a ha
    have ha' : a ∈ L2.map Prod.fst := by
      rw [← haddr]
      exact ha
    rcases List.mem_map.mp ha' with ⟨q, hq, rfl⟩
    constructor
    · show (LocationsStyle.valueAt SIZE
        (LocationsStyle.tryCompact SIZE (.keyValue L2)) q.1).isSome = true
      have := hval q.1 q.2 (by rw [Prod.mk.eta]; exact hq)
      rw [this]
      rfl
    · rcases hshape q hq with ⟨i, hqi, hbound⟩
      have ho : q.1 - info.base = i * SIZE := by omega
      rw [ho]
      unfold readBytes
      rw [if_pos (by omega)]
      rfl

theorem run_default_safe {T : Type} (ops : ScannableOps T) (SIZE : Nat)
    (info : RegionInfo) (mem mem' : List Nat) (hS : 0 < SIZE)
    (hdvd : SIZE ∣ info.regionSize)
    (hmem : mem.length = info.regionSize) (hmem' : mem'.length = info.regionSize) :
    SafeFirstScan SIZE info mem'
      ({ info
         locations := .range info.base (info.base + info.regionSize)
           ((windowsStep SIZE mem).map (fun p => ops.fromBytes p.2)) } : Region T) := by
  obtain ⟨m, hm⟩ := hdvd
  by_cases hm0 : info.regionSize = 0
  · have haddr : rangeStep info.base (info.base + info.regionSize) SIZE = [] := by
      unfold rangeStep
      rw [if_neg (by omega)]
    have hws : windowsStep SIZE mem = [] := by
      unfold windowsStep
      rw [if_neg (by omega)]
    refine ⟨?_, ?_, ?_⟩
    · intro a ha
      have ha' : a ∈ rangeStep info.base (info.base + info.regionSize) SIZE := ha
      rw [haddr] at ha'
      exact absurd ha' (List.not_mem_nil _)
    · intro s e vals h
      injection h with h1 h2 h3
      subst h1
      subst h2
      subst h3
      rw [hws]
      simp [LocationsStyle.addresses, haddr]
    · intro a ha
      have ha' : a ∈ rangeStep info.base (info.base + info.regionSize) SIZE := ha
      rw [haddr] at ha'
      exact absurd ha' (List.not_mem_nil _)
  · have hmpos : 1 ≤ m := by
      rcases Nat.eq_zero_or_pos m with rfl | h
      · omega
      · omega
    have hSlen : SIZE ≤ mem.length := by
      have : SIZE * 1 ≤ SIZE * m := Nat.mul_le_mul_left SIZE hmpos
      omega
    have hsub1 : SIZE * m - 1 = SIZE - 1 + SIZE * (m - 1) := by
      cases m with
      | zero => omega
      | succ m' =>
        rw [Nat.mul_succ]
        simp only [Nat.succ_sub_one]
        omega
    have hn : (info.regionSize - 1) / SIZE + 1 = m := by
      rw [hm, hsub1, Nat.add_mul_div_left _ _ hS, Nat.div_eq_of_lt (by omega)]
      omega
    have hsub2 : SIZE * m - SIZE = SIZE * (m - 1) := by
      cases m with
      | zero => omega
      | succ m' =>
        rw [Nat.mul_succ]
        simp only [Nat.succ_sub_one]
        omega
    have hvals : ((windowsStep SIZE mem).map
        (fun p => ops.fromBytes p.2)).length = m := by
      rw [List.length_map]
      unfold windowsStep
      rw [if_pos hSlen, List.length_map, List.length_range, hmem, hm, hsub2,
        Nat.mul_div_cancel_left _ hS]
      omega
    have haddr : rangeStep info.base (info.base + info.regionSize) SIZE
        = strideList info.base m SIZE := by
      unfold rangeStep
      rw [if_pos (by omega)]
      have harg : info.base + info.regionSize - info.base - 1 = info.regionSize - 1 := by
        omega
      rw [harg, hn]
    have hbounds : ∀ a ∈ strideList info.base m SIZE,
        ∃ i, a = info.base + i * SIZE ∧ i < m := by
      intro a ha
      rcases mem_strideList.mp ha with ⟨i, hi, rfl⟩
      exact ⟨i, rfl, hi⟩
    have hcell : ∀ i, i < m → i * SIZE + SIZE ≤ info.regionSize := by
      intro i hi
      have h3 : (i + 1) * SIZE ≤ m * SIZE := Nat.mul_le_mul_right SIZE (by omega)
      rw [Nat.succ_mul] at h3
      have hcomm : SIZE * m = m * SIZE := Nat.mul_comm SIZE m
      omega
    refine ⟨?_, ?_, ?_⟩
    · intro a ha
      have ha' : a ∈ rangeStep info.base (info.base + info.regionSize) SIZE := ha
      rw [haddr] at ha'
      rcases hbounds a ha' with ⟨i, rfl, hi⟩
      have := hcell i hi
      omega
    · intro s e vals h
      injection h with h1 h2 h3
      subst h1
      subst h2
      subst h3
      show ((windowsStep SIZE mem).map (fun p => ops.fromBytes p.2)).length
        = (rangeStep info.base (info.base + info.regionSize) SIZE).length
      rw [hvals, haddr, length_strideList]
    · intro a ha
      have ha' : a ∈ rangeStep info.base (info.base + info.regionSize) SIZE := ha
      rw [haddr] at ha'
      rcases hbounds a ha' with ⟨i, rfl, hi⟩
      have hc := hcell i hi
      constructor
      · show (LocationsStyle.valueAt SIZE
          (.range info.base (info.base + info.regionSize)
            ((windowsStep SIZE mem).map (fun p => ops.fromBytes p.2)))
          (info.base + i * SIZE)).isSome
        rw [LocationsStyle.valueAt, if_neg (by omega)]
        have hdiv : (info.base + i * SIZE - info.base) / SIZE = i := by
          have h4 : info.base + i * SIZE - info.base = i * SIZE := by omega
          rw [h4, Nat.mul_div_left i hS]
        rw [hdiv]
        exact get?_isSome_of_lt (by rw [hvals]; exact hi)
      · have ho : info.base + i * SIZE - info.base = i * SIZE := by omega
        rw [ho]
        unfold readBytes
        rw [if_pos (by omega)]
        rfl

/-! ## Float roughly-equal lemmas -/

theorem maskLow12_div_pow23 (x : Nat) : maskLow12 x / 2 ^ 23 = x / 2 ^ 23 := by
  unfold maskLow12
  have h1 : x / 4096 * 4096 / 2 ^ 23 = x / 4096 / 2 ^ 11 := by
    rw [show (2:Nat) ^ 23 = 4096 * 2 ^ 11 by norm_num, Nat.mul_comm (x / 4096) 4096,
      Nat.mul_div_mul_left _ _ (by norm_num)]
  rw [h1, Nat.div_div_eq_div_mul]
  norm_num

theorem maskLow12_eq_self_of_mantissa_zero {x : Nat} (h : x % 2 ^ 23 = 0) :
    maskLow12 x = x := by
  unfold maskLow12
  have h4096 : x % 4096 = 0 := by
    have := Nat.mod_mod_of_dvd x (show (4096:Nat) ∣ 2 ^ 23 by norm_num)
    omega
  exact Nat.div_mul_cancel (Nat.dvd_of_mod_eq_zero h4096)

theorem isNaN32_maskLow12 {x : Nat} (hx : isNaN32 x = false) :
    isNaN32 (maskLow12 x) = false := by
  unfold isNaN32 at hx ⊢
  rcases Bool.and_eq_false_iff.mp hx with h | h
  · rw [maskLow12_div_pow23]
    rw [h]
    rfl
  · have hmant : x % 2 ^ 23 = 0 := by
      simpa using h
    rw [maskLow12_eq_self_of_mantissa_zero hmant]
    exact hx

theorem eqF32_refl {x : Nat} (hx : isNaN32 x = false) : eqF32 x x = true := by
  unfold eqF32 f32BitsEq
  rw [isNaN32_maskLow12 hx]
  simp

/-! ## Predicate-construction equivalence -/

theorem toScan_eq_specToScan {T : Type} (parse : String → Option T)
    (selfKind : ValueType) (info : ScanInfo) (vt : ValueType) :
    toScan parse selfKind info vt = specToScan parse selfKind info vt := by
  unfold toScan specToScan
  by_cases hvt : vt ≠ selfKind
  · rw [if_pos hvt, if_pos hvt]
  · rw [if_neg hvt, if_neg hvt]
    rcases info with ⟨typ, value⟩
    cases typ <;> rcases value with _ | (⟨s⟩ | ⟨a, b⟩) <;> rfl

/-! ## The claims -/

/-- C1: the claim states that `len()` equals the number of addresses
yielded by `addresses()` for every legal store, with `len = span/SIZE`
for `Range` and `span/SIZE − |excluded|` for `ExcludedRange`.  The code
violates the invariant: for the `Range` store its own compaction
produces from nine aligned `i32` keys (`0x2000..0x2021`, `SIZE = 4` —
the repository's `compact_range` test), `len()` returns `0x21/4 = 8`
while `addresses()` yields 9 addresses; and for an `ExcludedRange`
store with `SIZE = 2` (the `compact_excluded_range` test data) `len()`
returns `range.len() − |excluded| = 129 − 1 = 128` — the division by
`SIZE` is missing — while `addresses()` yields 64 addresses. -/
theorem C1_len_addresses_mismatch :
    (LocationsStyle.tryCompact 4 (LocationsStyle.keyValue
        [(0x2000, (-2 : Int)), (0x2004, -1), (0x2008, 0), (0x200c, 1), (0x2010, 2),
          (0x2014, 3), (0x2018, 4), (0x201c, 5), (0x2020, 6)])
      = LocationsStyle.range 0x2000 0x2021 [-2, -1, 0, 1, 2, 3, 4, 5, 6])
    ∧ (LocationsStyle.len 4
        (LocationsStyle.range 0x2000 0x2021 ([-2, -1, 0, 1, 2, 3, 4, 5, 6] : List Int)) = 8
      ∧ (LocationsStyle.addresses 4
          (LocationsStyle.range 0x2000 0x2021
            ([-2, -1, 0, 1, 2, 3, 4, 5, 6] : List Int))).length = 9)
    ∧ (LocationsStyle.len 2
        (LocationsStyle.excludedRange 0x400 0x481 [0x444]
          (List.replicate 64 (0 : Int))) = 128
      ∧ (LocationsStyle.addresses 2
          (LocationsStyle.excludedRange 0x400 0x481 [0x444]
            (List.replicate 64 (0 : Int)))).length = 64) := by
  refine ⟨by decide, ⟨by decide, by decide⟩, ⟨by decide, by decide⟩⟩

/-- C2 counterexample: on a `KeyValue` map whose keys do not share a
residue class modulo `SIZE` — `{0 ↦ 5, 1 ↦ 7}` with `SIZE = 4` —
`try_compact` rewrites to a `Masked` store with a single set bit, and
the pair `(1, 7)` is silently dropped: the claim's unrestricted "for
every KeyValue store" is false. -/
theorem C2_counterexample :
    LocationsStyle.intoLocations 4
        (LocationsStyle.tryCompact 4 (LocationsStyle.keyValue [(0, (5 : Int)), (1, 7)]))
      = [(0, 5)]
    ∧ LocationsStyle.intoLocations 4 (LocationsStyle.keyValue [(0, (5 : Int)), (1, 7)])
      = [(0, 5), (1, 7)]
    ∧ LocationsStyle.addresses 4
        (LocationsStyle.tryCompact 4 (LocationsStyle.keyValue [(0, (5 : Int)), (1, 7)]))
      = [0]
    ∧ LocationsStyle.addresses 4 (LocationsStyle.keyValue [(0, (5 : Int)), (1, 7)])
      = [0, 1] := by
  refine ⟨by decide, by decide, by decide, by decide⟩

/-- C2 (amended): for every `KeyValue` store whose (sorted) keys all
share one residue class modulo `SIZE` — as do all stores the scans
construct — `try_compact` yields a store with exactly the same
`into_locations` pair sequence and the same `addresses()` sequence:
compaction neither adds, drops, nor reorders any surviving pair. -/
theorem C2_compact_preserves {T : Type} (SIZE : Nat) (locs : List (Nat × T))
    (hS : 0 < SIZE) (hsort : KSorted locs) (halign : AlignedKeys SIZE locs) :
    LocationsStyle.intoLocations SIZE
        (LocationsStyle.tryCompact SIZE (LocationsStyle.keyValue locs))
      = LocationsStyle.intoLocations SIZE (LocationsStyle.keyValue locs)
    ∧ LocationsStyle.addresses SIZE
        (LocationsStyle.tryCompact SIZE (LocationsStyle.keyValue locs))
      = LocationsStyle.addresses SIZE (LocationsStyle.keyValue locs) := by
  obtain ⟨h1, h2, _⟩ := tryCompact_keyValue_spec SIZE locs hS hsort halign
  exact ⟨h1, h2⟩

/-- C2 witness: the amended theorem applied to the repository's
`compact_offsetted` test store. -/
theorem C2_witness :
    (0 < 4 ∧ KSorted [(0x2000, (0 : Int)), (0x2004, 1), (0x2040, 2)]
      ∧ AlignedKeys 4 [(0x2000, (0 : Int)), (0x2004, 1), (0x2040, 2)])
    ∧ (LocationsStyle.intoLocations 4
          (LocationsStyle.tryCompact 4
            (LocationsStyle.keyValue [(0x2000, (0 : Int)), (0x2004, 1), (0x2040, 2)]))
        = LocationsStyle.intoLocations 4
            (LocationsStyle.keyValue [(0x2000, (0 : Int)), (0x2004, 1), (0x2040, 2)])
      ∧ LocationsStyle.addresses 4
          (LocationsStyle.tryCompact 4
            (LocationsStyle.keyValue [(0x2000, (0 : Int)), (0x2004, 1), (0x2040, 2)]))
        = LocationsStyle.addresses 4
            (LocationsStyle.keyValue [(0x2000, (0 : Int)), (0x2004, 1), (0x2040, 2)])) :=
  ⟨⟨by decide, by decide, by decide⟩,
    C2_compact_preserves 4 _ (by decide) (by decide) (by decide)⟩

/-- C3: `try_compact` is a no-op unless the store is `KeyValue` with at
least two entries, and otherwise deterministically rewrites it to the
first clause (in order Range, Masked, ExcludedRange, Offsetted,
KeyValue) whose precondition holds, with `lo = min key`,
`hi = max key`, `span = hi − lo`, `slots = span/SIZE + 1`: Range if
`len = slots`; Masked if `slots ≤ 64` and `8 + slots < len·8`;
ExcludedRange if `len ≥ 0.95·slots` (the threshold is computed in
`f32`, exactly as modelled by `excludedRangeWorth`); Offsetted if
`span ≤ 65535`; otherwise it stays `KeyValue`.  `specCompact` states
that policy in the specification's words; the two agree on every
well-formed store. -/
theorem C3_compaction_policy {T : Type} (SIZE : Nat) (style : LocationsStyle T)
    (hS : 0 < SIZE) (hwf : WellFormedKV SIZE style) :
    LocationsStyle.tryCompact SIZE style = specCompact SIZE style :=
  tryCompact_eq_specCompact SIZE style hS hwf

/-- C3 witness: the policy equivalence at a concrete two-entry store. -/
theorem C3_witness :
    (0 < 4 ∧ WellFormedKV 4 (LocationsStyle.keyValue [(0x2000, (0 : Int)), (0x2004, 1)]))
    ∧ LocationsStyle.tryCompact 4
        (LocationsStyle.keyValue [(0x2000, (0 : Int)), (0x2004, 1)])
      = specCompact 4 (LocationsStyle.keyValue [(0x2000, (0 : Int)), (0x2004, 1)]) :=
  ⟨⟨by decide, by decide⟩, C3_compaction_policy 4 _ (by decide) (by decide)⟩

/-- C4 counterexample: on the unaligned two-entry map `{0 ↦ 5, 1 ↦ 7}`
with `SIZE = 4`, `try_compact` produces a `Masked` store in which the
key `1` is no longer found: `value_at(1)` panics (`none`) instead of
returning `7`, so the claim's unrestricted quantification over KeyValue
maps is false. -/
theorem C4_counterexample :
    LocationsStyle.valueAt 4
      (LocationsStyle.tryCompact 4 (LocationsStyle.keyValue [(0, (5 : Int)), (1, 7)])) 1
      = none := by
  decide

/-- C4 (amended): for every `KeyValue` map with at least two entries
whose (sorted) keys share one residue class modulo `SIZE`, and every
key `a` of the map, after `try_compact` rewrites the store into any
encoding, `value_at(a)` returns exactly the mapped value — in
particular through the `ExcludedRange` stride-minus-smaller-excluded
indexing and the `Masked` set-bit-rank indexing. -/
theorem C4_value_at_after_compact {T : Type} (SIZE : Nat) (locs : List (Nat × T))
    (hS : 0 < SIZE) (hsort : KSorted locs) (halign : AlignedKeys SIZE locs)
    (hlen : 2 ≤ locs.length) (a : Nat) (v : T) (hmem : (a, v) ∈ locs) :
    LocationsStyle.valueAt SIZE
      (LocationsStyle.tryCompact SIZE (LocationsStyle.keyValue locs)) a = some v :=
  (tryCompact_keyValue_spec SIZE locs hS hsort halign).2.2 a v hmem

/-- C4 witness: lookup after compaction at the repository's
`compact_masked` test store. -/
theorem C4_witness :
    (0 < 4 ∧ KSorted [(0x2000, (0 : Int)), (0x2004, 1), (0x200c, 2)]
      ∧ AlignedKeys 4 [(0x2000, (0 : Int)), (0x2004, 1), (0x200c, 2)]
      ∧ 2 ≤ ([(0x2000, (0 : Int)), (0x2004, 1), (0x200c, 2)] : List (Nat × Int)).length
      ∧ (0x2004, (1 : Int)) ∈ [(0x2000, (0 : Int)), (0x2004, 1), (0x200c, 2)])
    ∧ LocationsStyle.valueAt 4
        (LocationsStyle.tryCompact 4
          (LocationsStyle.keyValue [(0x2000, (0 : Int)), (0x2004, 1), (0x200c, 2)]))
        0x2004 = some 1 :=
  ⟨⟨by decide, by decide, by decide, by decide, by decide⟩,
    C4_value_at_after_compact 4 _ (by decide) (by decide) (by decide) (by decide)
      0x2004 1 (by decide)⟩

/-- C5: the claim states `len(rescan(R, _, P)) ≤ len(R)` for every
non-`Unknown` predicate.  The code violates it through the `len()` bug
of C1: a first scan with `InRange(42, 42)` over a 36-byte region whose
nine aligned `i32` cells all hold 42 compacts to a `Range` store whose
`len()` is 8, yet re-scanning it with `Exact 42` over the same bytes
keeps all nine addresses, producing a `SameValue` store with
`len() = 9 > 8`.  (The `Unknown` arm returns a clone, so its equality
half holds trivially.) -/
theorem C5_monotonicity_violation :
    LocationsStyle.len 4
        (Scan.run (intOps true 4) 4 (Scan.inRange 42 42) ⟨0x2000, 36⟩
          (List.join (List.replicate 9 [42, 0, 0, 0]))).locations = 8
    ∧ (Scan.rerun (intOps true 4) 4 (Scan.exact 42)
          (Scan.run (intOps true 4) 4 (Scan.inRange 42 42) ⟨0x2000, 36⟩
            (List.join (List.replicate 9 [42, 0, 0, 0])))
          (List.join (List.replicate 9 [42, 0, 0, 0]))).map
        (fun r => LocationsStyle.len 4 r.locations) = some 9 := by
  refine ⟨by decide, by decide⟩

/-- C6: re-scanning the region produced by a first `Exact(v)` scan with
`Exact(v)` again over the very same bytes yields a region with the same
`addresses()` sequence (and no panic): the Exact scan is a fixpoint
over unchanged memory. -/
theorem C6_exact_rescan_fixpoint {T : Type} (ops : ScannableOps T) (SIZE : Nat)
    (v : T) (info : RegionInfo) (mem : List Nat) :
    (Scan.rerun ops SIZE (.exact v) (Scan.run ops SIZE (.exact v) info mem) mem).map
        (fun r => r.locations.addresses SIZE)
      = some ((Scan.run ops SIZE (.exact v) info mem).locations.addresses SIZE) := by
  rw [rerun_run_exact_eq]
  rfl

/-- C7: the claim states integer `sub` is wrapping (mod `2^width`) and
that `DecreasedBy`/`IncreasedBy` never fail on signed overflow.  The
code computes `*self - other` with the plain `-` operator, whose
overflow is a program error (a panic whenever overflow checks are
enabled) — unlike the repository's own sibling implementation in
`scan.rs`, which uses `wrapping_sub`.  At `i8` with `old = -128` and
fresh byte `1`, `sub` overflows (`none`), so the `DecreasedBy(127)`
test panics, whereas the claimed wrapping difference is `127`
(encoded `[127]`); on non-overflowing inputs `sub` does match the
wrapping value. -/
theorem C7_sub_overflow_panic :
    (intOps true 1).subB (-128) [1] = none
    ∧ acceptable (intOps true 1) (Scan.decreasedBy 127) (-128) [1] = none
    ∧ intEncode 1 (-129) = [127]
    ∧ (intOps true 1).subB 10 [7] = some [3] := by
  refine ⟨by decide, by decide, by decide, by decide⟩

/-- C8 counterexample: for the quiet NaN bit pattern `0x7FC00000`,
`eq(x, encode(x))` is false (masking keeps it a NaN and `NaN == NaN` is
false), so the claim's "for every float x" is false. -/
theorem C8_nan_not_reflexive :
    (0x7FC00000 : Nat) < 2 ^ 32 ∧ eqF32 0x7FC00000 0x7FC00000 = false := by
  refine ⟨by decide, by decide⟩

/-- C8 (amended): float equality clears the low
`MANTISSA_DIGITS/2 = 12` bits of both operands before comparing; for
f32, `eq(0.25, encode(0.25000123))` is true (`0x3E800000` and
`0x3E800029`, the nearest f32 to `0.25000123`, agree after masking),
and `eq(x, encode(x))` is true for every non-NaN f32 `x`. -/
theorem C8_roughly_equal :
    eqF32 0x3E800000 0x3E800029 = true
    ∧ ∀ x : Nat, x < 2 ^ 32 → isNaN32 x = false → eqF32 x x = true :=
  ⟨by decide, fun _ _ h => eqF32_refl h⟩

/-- C8 witness: reflexivity at `1.0f32 = 0x3F800000`. -/
theorem C8_witness :
    ((0x3F800000 : Nat) < 2 ^ 32 ∧ isNaN32 0x3F800000 = false)
    ∧ eqF32 0x3F800000 0x3F800000 = true :=
  ⟨⟨by decide, by decide⟩, C8_roughly_equal.2 0x3F800000 (by decide) (by decide)⟩

/-- C9 counterexample: with matching value kind and a well-shaped
`Exact` value whose literal does not parse (`"abc"` at `i8`),
predicate construction panics (`.unwrap()` on the parse result) — it
does not return `None` as the claim states. -/
theorem C9_parse_failure_panics :
    toScan (parseSigned 1) ValueType.i8
        ⟨ScanType.exact, some (ScanValue.exactV "abc")⟩ ValueType.i8
      = ToScanResult.panicked := by
  decide

/-- C9 (amended): predicate construction returns `None` (refusing the
scan) exactly when the sent value kind differs from the command's kind
or the value shape does not fit the predicate type; when kind and shape
fit but a numeric literal fails to parse at the target kind it panics
rather than returning `None`; otherwise it returns the constructed
scan.  `specToScan` states that behaviour directly and coincides with
the translated `to_scan` for every parser, kind and input. -/
theorem C9_to_scan_characterization {T : Type} (parse : String → Option T)
    (selfKind : ValueType) (info : ScanInfo) (vt : ValueType) :
    toScan parse selfKind info vt = specToScan parse selfKind info vt :=
  toScan_eq_specToScan parse selfKind info vt

/-- C10: if the region's byte size is a multiple of `SIZE` and the
buffers handed to the scans have exactly that many bytes, then every
address a first scan iterates lies on a full `SIZE`-byte cell inside
the region, a `Range` store holds exactly one value per iterated
address, and the `value_at` lookups and fresh-memory slices a
subsequent rescan performs over that store are all in bounds — the
out-of-range/panic branches are unreachable. -/
theorem C10_first_scan_safety {T : Type} (ops : ScannableOps T) (SIZE : Nat)
    (scan : Scan T) (info : RegionInfo) (mem mem' : List Nat) (hS : 0 < SIZE)
    (hdvd : SIZE ∣ info.regionSize)
    (hmem : mem.length = info.regionSize) (hmem' : mem'.length = info.regionSize) :
    SafeFirstScan SIZE info mem' (Scan.run ops SIZE scan info mem) := by
  cases scan with
  | exact v => exact run_exact_safe ops SIZE v info mem mem' hS hmem hmem'
  | inRange lo hi => exact run_inRange_safe ops SIZE lo hi info mem mem' hS hmem hmem'
  | unknown => exact run_default_safe ops SIZE info mem mem' hS hdvd hmem hmem'
  | unchanged => exact run_default_safe ops SIZE info mem mem' hS hdvd hmem hmem'
  | changed => exact run_default_safe ops SIZE info mem mem' hS hdvd hmem hmem'
  | decreased => exact run_default_safe ops SIZE info mem mem' hS hdvd hmem hmem'
  | increased => exact run_default_safe ops SIZE info mem mem' hS hdvd hmem hmem'
  | decreasedBy n => exact run_default_safe ops SIZE info mem mem' hS hdvd hmem hmem'
  | increasedBy n => exact run_default_safe ops SIZE info mem mem' hS hdvd hmem hmem'

/-- C10 witness: the safety contract at a concrete `Unknown` first scan
over an 8-byte region. -/
theorem C10_witness :
    (0 < 4 ∧ (4 : Nat) ∣ (RegionInfo.mk 0x1000 8).regionSize
      ∧ ([1, 0, 0, 0, 2, 0, 0, 0] : List Nat).length = (RegionInfo.mk 0x1000 8).regionSize
      ∧ ([9, 0, 0, 0, 9, 0, 0, 0] : List Nat).length = (RegionInfo.mk 0x1000 8).regionSize)
    ∧ SafeFirstScan 4 (RegionInfo.mk 0x1000 8) [9, 0, 0, 0, 9, 0, 0, 0]
        (Scan.run (intOps true 4) 4 Scan.unknown (RegionInfo.mk 0x1000 8)
          [1, 0, 0, 0, 2, 0, 0, 0]) :=
  ⟨⟨by decide, by decide, by decide, by decide⟩,
    C10_first_scan_safety (intOps true 4) 4 Scan.unknown (RegionInfo.mk 0x1000 8)
      [1, 0, 0, 0, 2, 0, 0, 0] [9, 0, 0, 0, 9, 0, 0, 0]
      (by decide) (by decide) (by decide) (by decide)⟩

end Urule
